import Mathlib

/-!
# Corrade `Utility::String`: a shallow embedding of `Corrade_String.cpp`

Byte strings (`std::string`, `Containers::ArrayView<const char>`) are lists of
bytes.  Pointers into a string are offsets from its first byte.  The value
`std::string::npos` is rendered as `none` in positions returned by the search
functions of `std::string`; a call that can throw or fail an assertion returns
an `Outcome`.  Sizes and offsets are natural numbers; the subtraction of two
sizes in `stripSuffix` and the addition `npos + 1` in `rtrimInPlace` are taken
modulo `2 ^ 64`.  Loops carry an iteration bound, and running out of it is an
outcome of its own, so a theorem that a call returns `ok` also says that its
loop ends.

The definitions come first; the theorems follow.
-/

set_option autoImplicit false

namespace CorradeString

/-- One `char` of the program, as an unsigned byte. -/
abbrev Byte := Fin 256

/-- How a call ends: with a value, with a failed `CORRADE_ASSERT`, with a
`std::out_of_range` exception, or (embedding only) with the iteration bound of
a loop exhausted. -/
inductive Outcome (α : Type) where
  | ok (value : α) : Outcome α
  | assertion : Outcome α
  | outOfRange : Outcome α
  | fuel : Outcome α
deriving DecidableEq

/-- Sequencing of calls: the first failure ends the computation. -/
def Outcome.bind {α β : Type} : Outcome α → (α → Outcome β) → Outcome β
  | .ok a, f => f a
  | .assertion, _ => .assertion
  | .outOfRange, _ => .outOfRange
  | .fuel, _ => .fuel

instance : Monad Outcome where
  pure := Outcome.ok
  bind := Outcome.bind

/-- Modelled from the spec: the macro `CORRADE_ASSERT(condition, message, returnValue)`
is declared outside `Corrade_String.cpp`; a false condition "fails fatally with a
described precondition violation" and the call produces no value. -/
def CORRADE_ASSERT (condition : Bool) : Outcome Unit :=
  if condition then .ok () else .assertion

/-! ## The `std::string` members used by the source -/

/-- Scan of `std::string::find`: `rest` are the bytes from offset `k` on. -/
def findFrom (needle : List Byte) : List Byte → Nat → Option Nat
  | [], k => if needle = [] then some k else none
  | b :: rest, k =>
    if needle.isPrefixOf (b :: rest) then some k else findFrom needle rest (k + 1)

/-- `string.find(s, pos, count)`: the lowest offset `>= pos` at which the first
`count` bytes of `s` occur in `string`, `npos` (`none`) when there is none. -/
def find (string s : List Byte) (pos count : Nat) : Option Nat :=
  if pos ≤ string.length then findFrom (s.take count) (string.drop pos) pos else none

/-- Downward scan of `std::string::rfind` from offset `k` to offset 0. -/
def rfindFrom (string needle : List Byte) : Nat → Option Nat
  | 0 => if needle.isPrefixOf string then some 0 else none
  | k + 1 =>
    if needle.isPrefixOf (string.drop (k + 1)) then some (k + 1)
    else rfindFrom string needle k

/-- `string.rfind(s, pos, count)`: the highest offset `<= pos` at which the first
`count` bytes of `s` occur in `string`; `pos = npos` is `none`. -/
def rfind (string s : List Byte) (pos : Option Nat) (count : Nat) : Option Nat :=
  let needle := s.take count
  if needle.length ≤ string.length then
    let last := string.length - needle.length
    rfindFrom string needle (match pos with
      | none => last
      | some p => min p last)
  else none

/-- `string.substr(pos, count)`, `count = npos` being `none`; throws
`std::out_of_range` when `pos > size()`. -/
def substr (string : List Byte) (pos : Nat) (count : Option Nat) : Outcome (List Byte) :=
  if pos ≤ string.length then
    .ok (match count with
      | none => string.drop pos
      | some n => (string.drop pos).take n)
  else .outOfRange

/-- `string.erase(index, count)`, `count = npos` being `none`; throws
`std::out_of_range` when `index > size()`. -/
def erase (string : List Byte) (index : Nat) (count : Option Nat) : Outcome (List Byte) :=
  if index ≤ string.length then
    .ok (match count with
      | none => string.take index
      | some n => string.take index ++ string.drop (index + n))
  else .outOfRange

/-- `string.replace(pos, count, s, count2)`: the bytes `[pos, pos + count)` of
`string` (cut at its end) give way to the first `count2` bytes of `s`; throws
`std::out_of_range` when `pos > size()`. -/
def replace (string : List Byte) (pos count : Nat) (s : List Byte) (count2 : Nat) :
    Outcome (List Byte) :=
  if pos ≤ string.length then
    .ok (string.take pos ++ s.take count2 ++ string.drop (pos + count))
  else .outOfRange

/-! ## Partition -/

/-- `partitionInternal(string, separator)`, lines 261-268. -/
def partitionInternal (string separator : List Byte) :
    Outcome (List Byte × List Byte × List Byte) := do
  let pos := find string separator 0 separator.length
  let head ← substr string 0 pos
  let sep ← match pos with
    | none => pure []
    | some p => substr string p (some separator.length)
  let tail ← match pos with
    | none => pure []
    | some p => substr string (p + separator.length) none
  pure (head, sep, tail)

/-- `rpartitionInternal(string, separator)`, lines 270-277. -/
def rpartitionInternal (string separator : List Byte) :
    Outcome (List Byte × List Byte × List Byte) := do
  let pos := rfind string separator none separator.length
  let head ← match pos with
    | none => pure []
    | some p => substr string 0 (some p)
  let sep ← match pos with
    | none => pure []
    | some p => substr string p (some separator.length)
  let tail ← match pos with
    | none => substr string 0 none
    | some p => substr string (p + separator.length) none
  pure (head, sep, tail)

/-- `partition(const std::string&, char)`, lines 281-283. -/
def partitionChar (string : List Byte) (separator : Byte) :
    Outcome (List Byte × List Byte × List Byte) :=
  partitionInternal string [separator]

/-- `partition(const std::string&, const std::string&)`, lines 285-287. -/
def partition (string separator : List Byte) :
    Outcome (List Byte × List Byte × List Byte) :=
  partitionInternal string separator

/-- `rpartition(const std::string&, char)`, lines 289-291. -/
def rpartitionChar (string : List Byte) (separator : Byte) :
    Outcome (List Byte × List Byte × List Byte) :=
  rpartitionInternal string [separator]

/-- `rpartition(const std::string&, const std::string&)`, lines 293-295. -/
def rpartition (string separator : List Byte) :
    Outcome (List Byte × List Byte × List Byte) :=
  rpartitionInternal string separator

/-! ## Affixes -/

/-- `std::strncmp(lhs, rhs, count)`: compares at most `count` bytes as unsigned
values and stops after a zero byte present in both.  At each call site of the
source both ranges hold at least `count` bytes (the size test precedes the
call), so the last equation is not reached from the program. -/
def strncmp : List Byte → List Byte → Nat → Int
  | _, _, 0 => 0
  | a :: lhs, b :: rhs, count + 1 =>
    if a ≠ b then (a.val : Int) - (b.val : Int)
    else if a = 0 then 0
    else strncmp lhs rhs count
  | _, _, _ + 1 => 0

/-- `Implementation::beginsWith(string, prefix)`, lines 110-114. -/
def beginsWith (string pfx : List Byte) : Bool :=
  if string.length < pfx.length then false
  else strncmp string pfx pfx.length == 0

/-- Subtraction of two `std::size_t` values (64 bits), wrapping around. -/
def sizeSub (a b : Nat) : Nat := (a % 2 ^ 64 + 2 ^ 64 - b % 2 ^ 64) % 2 ^ 64

/-- `Implementation::endsWith(string, suffix)`, lines 116-120: the comparison
starts at the pointer `string + string.size() - suffix.size()`. -/
def endsWith (string sfx : List Byte) : Bool :=
  if string.length < sfx.length then false
  else strncmp (string.drop (string.length - sfx.length)) sfx sfx.length == 0

/-- `Implementation::stripPrefix(string, prefix)`, lines 122-127. -/
def stripPrefix (string pfx : List Byte) : Outcome (List Byte) := do
  CORRADE_ASSERT (beginsWith string pfx)
  erase string 0 (some pfx.length)

/-- `Implementation::stripSuffix(string, suffix)`, lines 129-134. -/
def stripSuffix (string sfx : List Byte) : Outcome (List Byte) := do
  CORRADE_ASSERT (endsWith string sfx)
  erase string (sizeSub string.length sfx.length) none

/-! ## Replace -/

/-- The body of the loop of `replaceAll`, lines 147-148, entered with `found`
the offset of a match: the new string and the new search offset. -/
def replaceAllBody (search replacement string : List Byte) (found : Nat) :
    Outcome (List Byte × Nat) := do
  let string ← replace string found search.length replacement replacement.length
  pure (string, found + replacement.length)

/-- The loop of `replaceAll`, lines 146-149; the first argument bounds the
number of evaluations of the loop condition. -/
def replaceAllLoop (search replacement : List Byte) :
    Nat → List Byte → Nat → Outcome (List Byte)
  | 0, _, _ => .fuel
  | fuel + 1, string, found =>
    match find string search found search.length with
    | some found => do
      let (string, found) ← replaceAllBody search replacement string found
      replaceAllLoop search replacement fuel string found
    | none => .ok string

/-- `Implementation::replaceAll(string, search, replace)`, lines 143-151. -/
def replaceAll (string search replacement : List Byte) : Outcome (List Byte) := do
  CORRADE_ASSERT (!search.isEmpty)
  replaceAllLoop search replacement (string.length + 1) string 0

/-! ## Join -/

/-- The size computed up front by `join`, lines 72-74. -/
def joinSize (strings : List (List Byte)) (delimiter : List Byte) : Nat :=
  let size := strings.foldl (fun size s => size + (s.length + delimiter.length)) 0
  if size ≠ 0 then size - delimiter.length else size

/-- The loop of `join`, lines 81-84. -/
def joinLoop (size : Nat) (delimiter : List Byte) :
    List (List Byte) → List Byte → List Byte
  | [], result => result
  | s :: strings, result =>
    let result := result ++ s
    let result :=
      if result.length ≠ size then result ++ delimiter.take delimiter.length else result
    joinLoop size delimiter strings result

/-- `Implementation::join(strings, delimiter)`, lines 70-87. -/
def join (strings : List (List Byte)) (delimiter : List Byte) : List Byte :=
  joinLoop (joinSize strings delimiter) delimiter strings []

/-! ## Split -/

/-- Modelled from the spec: `Containers::StringView` is declared outside
`Corrade_String.cpp`; a Byte View is "a (pointer-or-index, length) pair over a
buffer it does not own".  `data` is the offset of its first byte from the first
byte of the string handed to the split function. -/
structure StringView where
  data : Nat
  size : Nat
deriving DecidableEq

/-- The bytes a view denotes in `string`; this is the copy made when a
`std::string` is constructed from the view (lines 235, 242, 249, 256). -/
def StringView.bytes (string : List Byte) (view : StringView) : List Byte :=
  (string.drop view.data).take view.size

/-- Modelled from the spec: `StringView::slice(begin, end)` is declared outside
`Corrade_String.cpp`; views are "created by slicing an existing view".  The two
pointers are offsets into `string`; a slice that is not inside the view is a
failed assertion. -/
def slice (string : List Byte) (first last : Nat) : Outcome StringView :=
  if first ≤ last ∧ last ≤ string.length then .ok ⟨first, last - first⟩ else .assertion

/-- Modelled from the spec: `StringView::suffix(begin)`, the slice from `begin`
to the end of the view. -/
def suffix (string : List Byte) (first : Nat) : Outcome StringView :=
  slice string first string.length

/-- Scan of `std::memchr`: `rest` are the bytes from offset `k` on. -/
def scanByte (ch : Byte) : List Byte → Nat → Option Nat
  | [], _ => none
  | b :: rest, k => if b = ch then some k else scanByte ch rest (k + 1)

/-- `std::memchr(ptr, ch, count)` on the buffer `string`: the offset of the
first byte equal to `ch` among the `count` bytes from offset `ptr`, the null
pointer (`none`) when there is none. -/
def memchr (string : List Byte) (ptr : Nat) (ch : Byte) (count : Nat) : Option Nat :=
  scanByte ch ((string.drop ptr).take count) ptr

/-- Scan of `std::find_first_of`: `rest` are the bytes from offset `k` on. -/
def scanAnyOf (delimiters : List Byte) : List Byte → Nat → Nat
  | [], k => k
  | b :: rest, k => if b ∈ delimiters then k else scanAnyOf delimiters rest (k + 1)

/-- `std::find_first_of(first, last, sFirst, sLast)` on the buffer `string`: the
offset of the first byte in `[first, last)` that is one of `delimiters`, and
`last` when there is none.  The result is a pointer into the buffer or its end
and so never the null pointer, which is `none`. -/
def find_first_of (string : List Byte) (first last : Nat) (delimiters : List Byte) :
    Option Nat :=
  some (scanAnyOf delimiters ((string.drop first).take (last - first)) first)

/-- The loop of `split(StringView, char)`, lines 177-180; the first argument
bounds the number of evaluations of the loop condition.  Returns `oldpos` and
the parts. -/
def splitLoop (string : List Byte) (delimiter : Byte) :
    Nat → Nat → List StringView → Outcome (Nat × List StringView)
  | 0, _, _ => .fuel
  | fuel + 1, oldpos, parts =>
    if oldpos < string.length then
      match memchr string oldpos delimiter (string.length - oldpos) with
      | some pos => do
        let part ← slice string oldpos pos
        splitLoop string delimiter fuel (pos + 1) (parts ++ [part])
      | none => .ok (oldpos, parts)
    else .ok (oldpos, parts)

/-- `split(StringView, char)`, lines 172-186. -/
def split (string : List Byte) (delimiter : Byte) : Outcome (List StringView) := do
  let (oldpos, parts) ← splitLoop string delimiter (string.length + 1) 0 []
  if !string.isEmpty then
    let part ← suffix string oldpos
    pure (parts ++ [part])
  else pure parts

/-- The loop of `splitWithoutEmptyParts(StringView, char)`, lines 193-198. -/
def splitWithoutEmptyPartsLoop (string : List Byte) (delimiter : Byte) :
    Nat → Nat → List StringView → Outcome (Nat × List StringView)
  | 0, _, _ => .fuel
  | fuel + 1, oldpos, parts =>
    if oldpos < string.length then
      match memchr string oldpos delimiter (string.length - oldpos) with
      | some pos => do
        let parts ← if pos ≠ oldpos then do
            let part ← slice string oldpos pos
            pure (parts ++ [part])
          else pure parts
        splitWithoutEmptyPartsLoop string delimiter fuel (pos + 1) parts
      | none => .ok (oldpos, parts)
    else .ok (oldpos, parts)

/-- `splitWithoutEmptyParts(StringView, char)`, lines 188-204. -/
def splitWithoutEmptyParts (string : List Byte) (delimiter : Byte) :
    Outcome (List StringView) := do
  let (oldpos, parts) ←
    splitWithoutEmptyPartsLoop string delimiter (string.length + 1) 0 []
  if !string.isEmpty && oldpos < string.length then
    let part ← suffix string oldpos
    pure (parts ++ [part])
  else pure parts

/-- The loop of `splitWithoutEmptyParts(StringView, StringView)`, lines 214-219. -/
def splitWithoutEmptyPartsSetLoop (string delimiters : List Byte) :
    Nat → Nat → List StringView → Outcome (Nat × List StringView)
  | 0, _, _ => .fuel
  | fuel + 1, oldpos, parts =>
    if oldpos < string.length then
      match find_first_of string oldpos string.length delimiters with
      | some pos => do
        let parts ← if pos ≠ oldpos then do
            let part ← slice string oldpos pos
            pure (parts ++ [part])
          else pure parts
        splitWithoutEmptyPartsSetLoop string delimiters fuel (pos + 1) parts
      | none => .ok (oldpos, parts)
    else .ok (oldpos, parts)

/-- `splitWithoutEmptyParts(StringView, StringView)`, lines 206-225. -/
def splitWithoutEmptyPartsSet (string delimiters : List Byte) :
    Outcome (List StringView) := do
  let (oldpos, parts) ←
    splitWithoutEmptyPartsSetLoop string delimiters (string.length + 1) 0 []
  if !string.isEmpty && oldpos < string.length then
    let part ← suffix string oldpos
    pure (parts ++ [part])
  else pure parts

/-- The constant `Whitespace`, line 157: `" \t\f\v\r\n"`. -/
def Whitespace : List Byte := [32, 9, 12, 11, 13, 10]

/-- `splitWithoutEmptyParts(StringView)`, lines 227-229. -/
def splitWithoutEmptyPartsWhitespace (string : List Byte) : Outcome (List StringView) :=
  splitWithoutEmptyPartsSet string Whitespace

/-- The `std::vector<std::string>` built from an array of views, lines 235,
242, 249 and 256. -/
def toStrings (string : List Byte) (parts : List StringView) : List (List Byte) :=
  parts.map (StringView.bytes string)

/-- `split(const std::string&, char)`, lines 231-236. -/
def splitStl (string : List Byte) (delimiter : Byte) : Outcome (List (List Byte)) := do
  let parts ← split string delimiter
  pure (toStrings string parts)

/-- `splitWithoutEmptyParts(const std::string&, char)`, lines 238-243. -/
def splitWithoutEmptyPartsStl (string : List Byte) (delimiter : Byte) :
    Outcome (List (List Byte)) := do
  let parts ← splitWithoutEmptyParts string delimiter
  pure (toStrings string parts)

/-- `splitWithoutEmptyParts(const std::string&, const std::string&)`, lines 245-250. -/
def splitWithoutEmptyPartsSetStl (string delimiters : List Byte) :
    Outcome (List (List Byte)) := do
  let parts ← splitWithoutEmptyPartsSet string delimiters
  pure (toStrings string parts)

/-- `splitWithoutEmptyParts(const std::string&)`, lines 252-257. -/
def splitWithoutEmptyPartsWhitespaceStl (string : List Byte) :
    Outcome (List (List Byte)) := do
  let parts ← splitWithoutEmptyPartsWhitespace string
  pure (toStrings string parts)

/-! ## Trim -/

/-- A position returned by a search of `std::string`, read as the `std::size_t`
it is: `npos` is the largest value. -/
def sizeOfPos : Option Nat → Nat
  | none => 2 ^ 64 - 1
  | some p => p

/-- Addition of two `std::size_t` values (64 bits), wrapping around. -/
def sizeAdd (a b : Nat) : Nat := (a + b) % 2 ^ 64

/-- Scan of `std::string::find_first_not_of`: `rest` are the bytes from offset
`k` on. -/
def scanNotOf (characters : List Byte) : List Byte → Nat → Option Nat
  | [], _ => none
  | b :: rest, k =>
    if b ∈ characters then scanNotOf characters rest (k + 1) else some k

/-- `string.find_first_not_of(s, pos, count)`: the lowest offset `>= pos` of a
byte that is none of the first `count` bytes of `s`, `npos` (`none`) when there
is none. -/
def find_first_not_of (string s : List Byte) (pos count : Nat) : Option Nat :=
  scanNotOf (s.take count) (string.drop pos) pos

/-- Downward scan of `std::string::find_last_not_of` over the first `k` bytes of
`string`, from the last of them. -/
def rscanNotOf (characters string : List Byte) : Nat → Option Nat
  | 0 => none
  | k + 1 =>
    match string[k]? with
    | some b => if b ∈ characters then rscanNotOf characters string k else some k
    | none => rscanNotOf characters string k

/-- `string.find_last_not_of(s, pos, count)`: the highest offset `<= pos` of a
byte that is none of the first `count` bytes of `s`, `npos` (`none`) when there
is none; `pos = npos` is `none`. -/
def find_last_not_of (string s : List Byte) (pos : Option Nat) (count : Nat) : Option Nat :=
  rscanNotOf (s.take count) string (match pos with
    | none => string.length
    | some p => min (p + 1) string.length)

/-- `Implementation::ltrimInPlace(string, characters)`, lines 42-44; the result
is the string after the call. -/
def ltrimInPlace (string characters : List Byte) : Outcome (List Byte) :=
  erase string 0 (find_first_not_of string characters 0 characters.length)

/-- `Implementation::rtrimInPlace(string, characters)`, lines 46-48: the index
handed to `erase` is the position found plus one, as a `std::size_t`. -/
def rtrimInPlace (string characters : List Byte) : Outcome (List Byte) :=
  erase string
    (sizeAdd (sizeOfPos (find_last_not_of string characters none characters.length)) 1) none

/-- `Implementation::trimInPlace(string, characters)`, lines 50-53. -/
def trimInPlace (string characters : List Byte) : Outcome (List Byte) := do
  let string ← rtrimInPlace string characters
  ltrimInPlace string characters

/-- `Implementation::ltrim(string, characters)`, lines 55-58. -/
def ltrim (string characters : List Byte) : Outcome (List Byte) :=
  ltrimInPlace string characters

/-- `Implementation::rtrim(string, characters)`, lines 60-63. -/
def rtrim (string characters : List Byte) : Outcome (List Byte) :=
  rtrimInPlace string characters

/-- `Implementation::trim(string, characters)`, lines 65-68. -/
def trim (string characters : List Byte) : Outcome (List Byte) :=
  trimInPlace string characters

/-- `ltrim(std::string)`, line 160. -/
def ltrimWhitespace (string : List Byte) : Outcome (List Byte) :=
  ltrim string Whitespace

/-- `rtrim(std::string)`, line 162. -/
def rtrimWhitespace (string : List Byte) : Outcome (List Byte) :=
  rtrim string Whitespace

/-- `trim(std::string)`, line 164. -/
def trimWhitespace (string : List Byte) : Outcome (List Byte) :=
  trim string Whitespace

/-! ## Join without empty parts, replace first -/

/-- The size computed up front by `joinWithoutEmptyParts`, lines 91-93. -/
def joinWithoutEmptyPartsSize (strings : List (List Byte)) (delimiter : List Byte) : Nat :=
  let size := strings.foldl
    (fun size s => if !s.isEmpty then size + (s.length + delimiter.length) else size) 0
  if size ≠ 0 then size - delimiter.length else size

/-- The loop of `joinWithoutEmptyParts`, lines 100-105. -/
def joinWithoutEmptyPartsLoop (size : Nat) (delimiter : List Byte) :
    List (List Byte) → List Byte → List Byte
  | [], result => result
  | s :: strings, result =>
    if s.isEmpty then joinWithoutEmptyPartsLoop size delimiter strings result
    else
      let result := result ++ s
      let result :=
        if result.length ≠ size then result ++ delimiter.take delimiter.length else result
      joinWithoutEmptyPartsLoop size delimiter strings result

/-- `Implementation::joinWithoutEmptyParts(strings, delimiter)`, lines 89-108. -/
def joinWithoutEmptyParts (strings : List (List Byte)) (delimiter : List Byte) : List Byte :=
  joinWithoutEmptyPartsLoop (joinWithoutEmptyPartsSize strings delimiter) delimiter strings []

/-- `Implementation::replaceFirst(string, search, replace)`, lines 136-141. -/
def replaceFirst (string search replacement : List Byte) : Outcome (List Byte) :=
  match find string search 0 search.length with
  | some found => replace string found search.length replacement replacement.length
  | none => .ok string

/-! ## Predicates of the specification -/

/-- The bytes `s[p, p + |x|)` exist and are `x`: the literal `x` occurs in `s`
at offset `p`. -/
def OccursAt (x s : List Byte) (p : Nat) : Prop :=
  p + x.length ≤ s.length ∧ (s.drop p).take x.length = x

instance (x s : List Byte) (p : Nat) : Decidable (OccursAt x s p) := by
  unfold OccursAt; infer_instance

/-- Bounded search for the first offset at which `x` occurs in `s`: `count`
offsets are tried, from `p` upward. -/
def firstOccurrenceFrom (x s : List Byte) : Nat → Nat → Option Nat
  | 0, _ => none
  | count + 1, p =>
    if OccursAt x s p then some p else firstOccurrenceFrom x s count (p + 1)

/-- The offset of the first occurrence of `x` in `s`, if `x` occurs in `s`. -/
def firstOccurrence (x s : List Byte) : Option Nat :=
  firstOccurrenceFrom x s (s.length + 1) 0

/-- The left-to-right non-overlapping substitution of the specification, in its
words: `R(s) = s` if `x` does not occur in `s`, and otherwise
`R(s) = s[0,p) ++ r ++ R(s[p+|x|,|s|))` with `p` the offset of the first
occurrence of `x` in `s`.  The first argument bounds the depth of the recursion. -/
def substituteFuel (x r : List Byte) : Nat → List Byte → List Byte
  | 0, s => s
  | fuel + 1, s =>
    match firstOccurrence x s with
    | none => s
    | some p => s.take p ++ r ++ substituteFuel x r fuel (s.drop (p + x.length))

/-- The substitution `R` of the specification; a recursion depth of `|s|` is
never reached when `x` is not empty. -/
def substitute (x r s : List Byte) : List Byte :=
  substituteFuel x r s.length s

/-- A byte-at-a-time account of the split loops, against which they are
verified: `start` is the offset at which the current part began, `pos` the
offset of the first of the remaining bytes.  Returns the parts that a delimiter
closes (all of them, or the non-empty ones) and the offset at which the last,
unclosed part begins. -/
def scanFields (isDelimiter : Byte → Bool) (keepEmpty : Bool) :
    List Byte → Nat → Nat → List StringView × Nat
  | [], start, _ => ([], start)
  | b :: rest, start, pos =>
    if isDelimiter b then
      let closed := scanFields isDelimiter keepEmpty rest (pos + 1) (pos + 1)
      (if keepEmpty || decide (pos ≠ start) then ⟨start, pos - start⟩ :: closed.1
        else closed.1, closed.2)
    else scanFields isDelimiter keepEmpty rest start (pos + 1)


/-- The offsets, in increasing order, of the bytes equal to `c`; `k` is the
offset of the first byte of the list. -/
def delimiterPositions (c : Byte) : List Byte → Nat → List Nat
  | [], _ => []
  | b :: rest, k =>
    if b = c then k :: delimiterPositions c rest (k + 1)
    else delimiterPositions c rest (k + 1)

/-- The view of the bytes `[first, last)`. -/
def span (first last : Nat) : StringView := ⟨first, last - first⟩

/-! ## Searching -/

theorem isPrefixOf_iff (x t : List Byte) : x.isPrefixOf t = true ↔ x <+: t :=
  List.isPrefixOf_iff_prefix

theorem occursAt_iff (x s : List Byte) (p : Nat) :
    OccursAt x s p ↔ p ≤ s.length ∧ x <+: s.drop p := by
  unfold OccursAt
  rw [List.prefix_iff_eq_take]
  constructor
  · rintro ⟨h1, h2⟩
    exact ⟨by omega, h2.symm⟩
  · rintro ⟨h1, h2⟩
    refine ⟨?_, h2.symm⟩
    have := congrArg List.length h2
    simp at this
    omega

theorem findFrom_some (needle : List Byte) :
    ∀ (t : List Byte) (k j : Nat), findFrom needle t k = some j →
      ∃ i, j = k + i ∧ i ≤ t.length ∧ needle <+: t.drop i ∧
        ∀ q, q < i → ¬ needle <+: t.drop q := by
  intro t
  induction t with
  | nil =>
    intro k j h
    simp only [findFrom] at h
    split at h
    · rename_i hn
      refine ⟨0, ?_, le_refl _, ?_, ?_⟩
      · simpa using (Option.some.inj h).symm
      · simp [hn]
      · intro q hq; omega
    · cases h
  | cons b rest ih =>
    intro k j h
    simp only [findFrom] at h
    split at h
    · rename_i hp
      refine ⟨0, ?_, Nat.zero_le _, ?_, ?_⟩
      · simpa using (Option.some.inj h).symm
      · simpa using (isPrefixOf_iff _ _).1 hp
      · intro q hq; omega
    · rename_i hp
      obtain ⟨i, hj, hi, hpre, hmin⟩ := ih (k + 1) j h
      refine ⟨i + 1, by omega, by simp; omega, by simpa using hpre, ?_⟩
      intro q hq
      cases q with
      | zero => simpa using fun h' => hp ((isPrefixOf_iff _ _).2 h')
      | succ q => simpa using hmin q (by omega)

theorem findFrom_none (needle : List Byte) :
    ∀ (t : List Byte) (k : Nat), findFrom needle t k = none →
      ∀ q, q ≤ t.length → ¬ needle <+: t.drop q := by
  intro t
  induction t with
  | nil =>
    intro k h q hq
    simp only [findFrom] at h
    split at h
    · cases h
    · rename_i hn
      simpa using hn
  | cons b rest ih =>
    intro k h q hq
    simp only [findFrom] at h
    split at h
    · cases h
    · rename_i hp
      cases q with
      | zero => simpa using fun h' => hp ((isPrefixOf_iff _ _).2 h')
      | succ q => simpa using ih (k + 1) h q (by simpa using hq)

/-- The result of `find` from offset `pos` is the first occurrence at or after `pos`. -/
theorem find_some (string x : List Byte) (pos j : Nat)
    (h : find string x pos x.length = some j) :
    pos ≤ j ∧ OccursAt x string j ∧ ∀ q, pos ≤ q → q < j → ¬ OccursAt x string q := by
  unfold find at h
  split at h
  · rename_i hpos
    rw [List.take_length] at h
    obtain ⟨i, hj, hi, hpre, hmin⟩ := findFrom_some x _ pos j h
    simp only [List.length_drop] at hi
    subst hj
    refine ⟨by omega, ?_, ?_⟩
    · rw [occursAt_iff]
      refine ⟨by omega, ?_⟩
      simpa [List.drop_drop, Nat.add_comm] using hpre
    · intro q hq1 hq2 hocc
      rw [occursAt_iff] at hocc
      apply hmin (q - pos) (by omega)
      rw [List.drop_drop]
      have : pos + (q - pos) = q := by omega
      simpa [this, Nat.add_comm] using hocc.2
  · cases h

theorem find_none (string x : List Byte) (pos : Nat)
    (h : find string x pos x.length = none) :
    ∀ q, pos ≤ q → ¬ OccursAt x string q := by
  intro q hq hocc
  rw [occursAt_iff] at hocc
  unfold find at h
  split at h
  · rw [List.take_length] at h
    apply findFrom_none x _ pos h (q - pos) (by simp; omega)
    rw [List.drop_drop]
    have : pos + (q - pos) = q := by omega
    simpa [this, Nat.add_comm] using hocc.2
  · omega

/-- A first occurrence at or after `pos` is what `find` returns. -/
theorem find_eq_of_first (string x : List Byte) (pos p : Nat) (hp : pos ≤ p)
    (hocc : OccursAt x string p)
    (hmin : ∀ q, pos ≤ q → q < p → ¬ OccursAt x string q) :
    find string x pos x.length = some p := by
  cases h : find string x pos x.length with
  | none => exact absurd hocc (find_none string x pos h p hp)
  | some j =>
    obtain ⟨h1, h2, h3⟩ := find_some string x pos j h
    rcases Nat.lt_trichotomy j p with hlt | heq | hgt
    · exact absurd h2 (hmin j h1 hlt)
    · rw [heq]
    · exact absurd hocc (h3 p hp hgt)

theorem find_eq_none_of_absent (string x : List Byte) (pos : Nat)
    (habs : ∀ q, pos ≤ q → ¬ OccursAt x string q) :
    find string x pos x.length = none := by
  cases h : find string x pos x.length with
  | none => rfl
  | some j =>
    obtain ⟨h1, h2, _⟩ := find_some string x pos j h
    exact absurd h2 (habs j h1)


theorem rfindFrom_some (string needle : List Byte) :
    ∀ (k j : Nat), rfindFrom string needle k = some j →
      j ≤ k ∧ needle <+: string.drop j ∧
        ∀ q, j < q → q ≤ k → ¬ needle <+: string.drop q := by
  intro k
  induction k with
  | zero =>
    intro j h
    simp only [rfindFrom] at h
    split at h
    · rename_i hp
      have hj : j = 0 := (Option.some.inj h).symm
      subst hj
      exact ⟨le_refl _, by simpa using (isPrefixOf_iff _ _).1 hp, fun q h1 h2 => by omega⟩
    · cases h
  | succ k ih =>
    intro j h
    simp only [rfindFrom] at h
    split at h
    · rename_i hp
      have hj : j = k + 1 := (Option.some.inj h).symm
      subst hj
      exact ⟨le_refl _, (isPrefixOf_iff _ _).1 hp, fun q h1 h2 => by omega⟩
    · rename_i hp
      obtain ⟨h1, h2, h3⟩ := ih j h
      refine ⟨by omega, h2, ?_⟩
      intro q hq1 hq2
      rcases Nat.lt_or_ge q (k + 1) with hlt | hge
      · exact h3 q hq1 (by omega)
      · have : q = k + 1 := by omega
        subst this
        exact fun h' => hp ((isPrefixOf_iff _ _).2 h')

theorem rfindFrom_none (string needle : List Byte) :
    ∀ (k : Nat), rfindFrom string needle k = none →
      ∀ q, q ≤ k → ¬ needle <+: string.drop q := by
  intro k
  induction k with
  | zero =>
    intro h q hq
    simp only [rfindFrom] at h
    split at h
    · cases h
    · rename_i hp
      have : q = 0 := by omega
      subst this
      simpa using fun h' => hp ((isPrefixOf_iff _ _).2 h')
  | succ k ih =>
    intro h q hq
    simp only [rfindFrom] at h
    split at h
    · cases h
    · rename_i hp
      rcases Nat.lt_or_ge q (k + 1) with hlt | hge
      · exact ih h q (by omega)
      · have : q = k + 1 := by omega
        subst this
        exact fun h' => hp ((isPrefixOf_iff _ _).2 h')

/-- The result of `rfind` from `npos` is the last occurrence. -/
theorem rfind_some (string x : List Byte) (j : Nat)
    (h : rfind string x none x.length = some j) :
    OccursAt x string j ∧ ∀ q, j < q → ¬ OccursAt x string q := by
  unfold rfind at h
  simp only [List.take_length] at h
  split at h
  · rename_i hlen
    obtain ⟨h1, h2, h3⟩ := rfindFrom_some string x _ j h
    refine ⟨(occursAt_iff _ _ _).2 ⟨by omega, h2⟩, ?_⟩
    intro q hq hocc
    have hq2 : q + x.length ≤ string.length := hocc.1
    exact h3 q hq (by omega) ((occursAt_iff _ _ _).1 hocc).2
  · cases h

theorem rfind_none (string x : List Byte)
    (h : rfind string x none x.length = none) :
    ∀ q, ¬ OccursAt x string q := by
  intro q hocc
  have hq2 : q + x.length ≤ string.length := hocc.1
  unfold rfind at h
  simp only [List.take_length] at h
  split at h
  · exact rfindFrom_none string x _ h q (by omega) ((occursAt_iff _ _ _).1 hocc).2
  · omega

theorem rfind_eq_of_last (string x : List Byte) (p : Nat)
    (hocc : OccursAt x string p) (hmax : ∀ q, p < q → ¬ OccursAt x string q) :
    rfind string x none x.length = some p := by
  cases h : rfind string x none x.length with
  | none => exact absurd hocc (rfind_none string x h p)
  | some j =>
    obtain ⟨h2, h3⟩ := rfind_some string x j h
    rcases Nat.lt_trichotomy j p with hlt | heq | hgt
    · exact absurd hocc (h3 p hlt)
    · rw [heq]
    · exact absurd h2 (hmax j hgt)

theorem rfind_eq_none_of_absent (string x : List Byte)
    (habs : ∀ q, ¬ OccursAt x string q) :
    rfind string x none x.length = none := by
  cases h : rfind string x none x.length with
  | none => rfl
  | some j => exact absurd (rfind_some string x j h).1 (habs j)

/-! ## Partition -/

@[simp] theorem Outcome.ok_bind {α β : Type} (a : α) (f : α → Outcome β) :
    (Outcome.ok a >>= f) = f a := rfl

@[simp] theorem Outcome.pure_eq {α : Type} (a : α) : (pure a : Outcome α) = Outcome.ok a := rfl

theorem partitionInternal_found (s sep : List Byte) (p : Nat)
    (hfind : find s sep 0 sep.length = some p) :
    partitionInternal s sep =
      .ok (s.take p, (s.drop p).take sep.length, s.drop (p + sep.length)) := by
  obtain ⟨_, hocc, _⟩ := find_some s sep 0 p hfind
  have h1 : p + sep.length ≤ s.length := hocc.1
  have h2 : p ≤ s.length := by omega
  simp [partitionInternal, hfind, substr, h1, h2]

theorem partitionInternal_absent (s sep : List Byte)
    (hfind : find s sep 0 sep.length = none) :
    partitionInternal s sep = .ok (s, [], []) := by
  simp [partitionInternal, hfind, substr]

theorem rpartitionInternal_found (s sep : List Byte) (p : Nat)
    (hfind : rfind s sep none sep.length = some p) :
    rpartitionInternal s sep =
      .ok (s.take p, (s.drop p).take sep.length, s.drop (p + sep.length)) := by
  obtain ⟨hocc, _⟩ := rfind_some s sep p hfind
  have h1 : p + sep.length ≤ s.length := hocc.1
  have h2 : p ≤ s.length := by omega
  simp [rpartitionInternal, hfind, substr, h1, h2]

theorem rpartitionInternal_absent (s sep : List Byte)
    (hfind : rfind s sep none sep.length = none) :
    rpartitionInternal s sep = .ok ([], [], s) := by
  simp [rpartitionInternal, hfind, substr]

/-- C2: for a non-empty separator `sep` (a literal, or the single byte `c` of the
`char` overload), `partition` cuts `s` at the first occurrence `p` of `sep` into
`(s[0,p), s[p,p+|sep|), s[p+|sep|,|s|))`, the middle being `sep` itself; when `sep`
does not occur in `s` the result is `(s, empty, empty)`. -/
theorem partition_first_occurrence (s sep : List Byte) (hsep : sep ≠ []) :
    (∀ p, OccursAt sep s p → (∀ q, q < p → ¬ OccursAt sep s q) →
      partition s sep =
        .ok (s.take p, (s.drop p).take sep.length, s.drop (p + sep.length)) ∧
      (s.drop p).take sep.length = sep) ∧
    ((∀ q, ¬ OccursAt sep s q) → partition s sep = .ok (s, [], [])) ∧
    (∀ c : Byte, sep = [c] → partitionChar s c = partition s sep) := by
  have _ := hsep
  refine ⟨?_, ?_, ?_⟩
  · intro p hocc hmin
    refine ⟨?_, hocc.2⟩
    exact partitionInternal_found s sep p
      (find_eq_of_first s sep 0 p (Nat.zero_le _) hocc (fun q _ hq => hmin q hq))
  · intro habs
    exact partitionInternal_absent s sep
      (find_eq_none_of_absent s sep 0 (fun q _ => habs q))
  · intro c hc
    subst hc
    rfl

/-- C2 at `"a=b=c"` and `"abc"` with the separator `'='`. -/
theorem partition_first_occurrence_witness :
    partitionChar [97, 61, 98, 61, 99] 61 = .ok ([97], [61], [98, 61, 99]) ∧
    partitionChar [97, 98, 99] 61 = .ok ([97, 98, 99], [], []) := by
  have h := partition_first_occurrence [97, 61, 98, 61, 99] [61] (by decide)
  have g := partition_first_occurrence [97, 98, 99] [61] (by decide)
  refine ⟨?_, ?_⟩
  · rw [h.2.2 61 rfl]
    exact (h.1 1 (by decide) (by decide)).1
  · rw [g.2.2 61 rfl]
    refine g.2.1 (fun q h => ?_)
    have hq : q + 1 ≤ 3 := h.1
    have hq3 : q < 3 := by omega
    interval_cases q <;> exact absurd h (by decide)

/-- C3: for a non-empty separator `sep`, `rpartition` cuts `s` at the last
occurrence `p` of `sep` into `(s[0,p), s[p,p+|sep|), s[p+|sep|,|s|))`; when `sep`
does not occur in `s` the result is `(empty, empty, s)`. -/
theorem rpartition_last_occurrence (s sep : List Byte) (hsep : sep ≠ []) :
    (∀ p, OccursAt sep s p → (∀ q, p < q → ¬ OccursAt sep s q) →
      rpartition s sep =
        .ok (s.take p, (s.drop p).take sep.length, s.drop (p + sep.length)) ∧
      (s.drop p).take sep.length = sep) ∧
    ((∀ q, ¬ OccursAt sep s q) → rpartition s sep = .ok ([], [], s)) ∧
    (∀ c : Byte, sep = [c] → rpartitionChar s c = rpartition s sep) := by
  have _ := hsep
  refine ⟨?_, ?_, ?_⟩
  · intro p hocc hmax
    exact ⟨rpartitionInternal_found s sep p (rfind_eq_of_last s sep p hocc hmax), hocc.2⟩
  · intro habs
    exact rpartitionInternal_absent s sep (rfind_eq_none_of_absent s sep habs)
  · intro c hc
    subst hc
    rfl

/-- C3 at `"a=b=c"` and `"abc"` with the separator `'='`. -/
theorem rpartition_last_occurrence_witness :
    rpartitionChar [97, 61, 98, 61, 99] 61 = .ok ([97, 61, 98], [61], [99]) ∧
    rpartitionChar [97, 98, 99] 61 = .ok ([], [], [97, 98, 99]) := by
  have h := rpartition_last_occurrence [97, 61, 98, 61, 99] [61] (by decide)
  have g := rpartition_last_occurrence [97, 98, 99] [61] (by decide)
  refine ⟨?_, ?_⟩
  · rw [h.2.2 61 rfl]
    refine (h.1 3 (by decide) (fun q hq h => ?_)).1
    have hq2 : q + 1 ≤ 5 := h.1
    have hq5 : q < 5 := by omega
    interval_cases q
    exact absurd h (by decide)
  · rw [g.2.2 61 rfl]
    refine g.2.1 (fun q h => ?_)
    have hq : q + 1 ≤ 3 := h.1
    have hq3 : q < 3 := by omega
    interval_cases q <;> exact absurd h (by decide)

/-- C5, as the code behaves: the empty separator is found, by `find` at offset 0
and by `rfind` at offset `|s|`, so `partition(s, "")` is `(empty, empty, s)` and
`rpartition(s, "")` is `(s, empty, empty)`. -/
theorem partition_empty_separator (s : List Byte) :
    partition s [] = .ok ([], [], s) ∧ rpartition s [] = .ok (s, [], []) := by
  constructor
  · have h := partitionInternal_found s [] 0
      (find_eq_of_first s [] 0 0 (le_refl _) (by simp [OccursAt]) (fun q _ hq => by omega))
    simpa using h
  · have h := rpartitionInternal_found s [] s.length
      (rfind_eq_of_last s [] s.length (by simp [OccursAt])
        (fun q hq hocc => by have := hocc.1; omega))
    simpa using h

/-- C5 fails as stated at `s = "a"`: neither `partition("a", "")` is
`("a", empty, empty)` nor `rpartition("a", "")` is `(empty, empty, "a")`. -/
theorem partition_empty_separator_counterexample :
    partition [97] [] ≠ .ok ([97], [], []) ∧ rpartition [97] [] ≠ .ok ([], [], [97]) := by
  decide


/-! ## Replace -/

theorem firstOccurrenceFrom_some (x s : List Byte) :
    ∀ (count p j : Nat), firstOccurrenceFrom x s count p = some j →
      p ≤ j ∧ OccursAt x s j ∧ ∀ q, p ≤ q → q < j → ¬ OccursAt x s q := by
  intro count
  induction count with
  | zero => intro p j h; cases h
  | succ n ih =>
    intro p j h
    simp only [firstOccurrenceFrom] at h
    split at h
    · rename_i hocc
      have hj : j = p := (Option.some.inj h).symm
      subst hj
      exact ⟨le_refl _, hocc, fun q h1 h2 => by omega⟩
    · rename_i hocc
      obtain ⟨h1, h2, h3⟩ := ih (p + 1) j h
      refine ⟨by omega, h2, ?_⟩
      intro q hq1 hq2
      rcases Nat.eq_or_lt_of_le hq1 with heq | hlt
      · subst heq; exact hocc
      · exact h3 q hlt hq2

theorem firstOccurrenceFrom_none (x s : List Byte) :
    ∀ (count p : Nat), firstOccurrenceFrom x s count p = none →
      ∀ q, p ≤ q → q < p + count → ¬ OccursAt x s q := by
  intro count
  induction count with
  | zero => intro p _ q h1 h2; omega
  | succ n ih =>
    intro p h q hq1 hq2
    simp only [firstOccurrenceFrom] at h
    split at h
    · cases h
    · rename_i hocc
      rcases Nat.eq_or_lt_of_le hq1 with heq | hlt
      · subst heq; exact hocc
      · exact ih (p + 1) h q hlt (by omega)

/-- The specification's "first occurrence" and the program's `find` from offset 0 agree. -/
theorem find_zero_eq_firstOccurrence (x s : List Byte) :
    find s x 0 x.length = firstOccurrence x s := by
  cases h : firstOccurrence x s with
  | none =>
    apply find_eq_none_of_absent
    intro q _ hocc
    have hq : q + x.length ≤ s.length := hocc.1
    exact firstOccurrenceFrom_none x s _ 0 h q (Nat.zero_le _) (by omega) hocc
  | some p =>
    obtain ⟨h1, h2, h3⟩ := firstOccurrenceFrom_some x s _ 0 p h
    exact find_eq_of_first s x 0 p h1 h2 h3

theorem findFrom_shift (needle : List Byte) :
    ∀ (t : List Byte) (k m : Nat),
      findFrom needle t (k + m) = (findFrom needle t k).map (· + m) := by
  intro t
  induction t with
  | nil => intro k m; simp only [findFrom]; split <;> simp
  | cons b rest ih =>
    intro k m
    simp only [findFrom]
    split
    · simp
    · have := ih (k + 1) m
      rw [← this]
      congr 1
      omega

/-- Searching after a prefix `pre` from offset `|pre|` is searching the rest from 0. -/
theorem find_append (pre t x : List Byte) (n : Nat) :
    find (pre ++ t) x pre.length n = (find t x 0 n).map (· + pre.length) := by
  unfold find
  simp only [List.length_append, Nat.le_add_right, Nat.zero_le, if_true, List.drop_zero,
    List.drop_left]
  have := findFrom_shift (x.take n) t 0 pre.length
  simpa using this

theorem substituteFuel_stable (x r : List Byte) (hx : x ≠ []) :
    ∀ (fuel : Nat) (s : List Byte), s.length ≤ fuel →
      substituteFuel x r fuel s = substituteFuel x r s.length s := by
  have hxl : 0 < x.length := List.length_pos.2 hx
  intro fuel
  induction fuel using Nat.strong_induction_on with
  | _ fuel ih =>
    intro s hs
    rcases Nat.eq_or_lt_of_le hs with heq | hlt
    · rw [heq]
    · cases fuel with
      | zero => omega
      | succ n =>
        cases hlen : s.length with
        | zero =>
          have hs0 : s = [] := List.length_eq_zero.1 hlen
          subst hs0
          have hnone : firstOccurrence x [] = none := by
            rw [← find_zero_eq_firstOccurrence]
            apply find_eq_none_of_absent
            intro q _ hocc
            have h0 : q + x.length ≤ 0 := hocc.1
            omega
          simp [substituteFuel, hnone]
        | succ m =>
          simp only [substituteFuel]
          cases hf : firstOccurrence x s with
          | none => rfl
          | some p =>
            simp only
            obtain ⟨_, hocc, _⟩ := firstOccurrenceFrom_some x s _ 0 p hf
            have hp : p + x.length ≤ s.length := hocc.1
            have hl : (s.drop (p + x.length)).length ≤ m := by
              simp only [List.length_drop]; omega
            rw [ih n (by omega) _ (by omega), ih m (by omega) _ hl]

theorem substitute_absent (x r s : List Byte) (habs : ∀ q, ¬ OccursAt x s q) :
    substitute x r s = s := by
  have hnone : firstOccurrence x s = none := by
    rw [← find_zero_eq_firstOccurrence]
    exact find_eq_none_of_absent s x 0 (fun q _ => habs q)
  unfold substitute
  cases s.length with
  | zero => rfl
  | succ n => simp [substituteFuel, hnone]

theorem substitute_found (x r s : List Byte) (hx : x ≠ []) (p : Nat)
    (hocc : OccursAt x s p) (hmin : ∀ q, q < p → ¬ OccursAt x s q) :
    substitute x r s = s.take p ++ r ++ substitute x r (s.drop (p + x.length)) := by
  have hxl : 0 < x.length := List.length_pos.2 hx
  have hp : p + x.length ≤ s.length := hocc.1
  have hsome : firstOccurrence x s = some p := by
    rw [← find_zero_eq_firstOccurrence]
    exact find_eq_of_first s x 0 p (Nat.zero_le _) hocc (fun q _ hq => hmin q hq)
  unfold substitute
  cases hlen : s.length with
  | zero => omega
  | succ n =>
    simp only [substituteFuel, hsome]
    rw [substituteFuel_stable x r hx n _ (by simp only [List.length_drop]; omega)]

/-- The loop of `replaceAll` entered at offset `|pre|` of `pre ++ t` leaves `pre`
alone and substitutes in `t`. -/
theorem replaceAllLoop_eq (x r : List Byte) (hx : x ≠ []) :
    ∀ (fuel : Nat) (pre t : List Byte), t.length ≤ fuel →
      replaceAllLoop x r (fuel + 1) (pre ++ t) pre.length =
        .ok (pre ++ substituteFuel x r fuel t) := by
  have hxl : 0 < x.length := List.length_pos.2 hx
  intro fuel
  induction fuel with
  | zero =>
    intro pre t ht
    have ht0 : t = [] := List.length_eq_zero.1 (by omega)
    subst ht0
    have hnone : find (pre ++ []) x pre.length x.length = none := by
      rw [find_append]
      rw [find_eq_none_of_absent [] x 0 (fun q _ hocc => by
        have h0 : q + x.length ≤ 0 := hocc.1
        omega)]
      rfl
    simp only [replaceAllLoop, hnone, substituteFuel]
  | succ n ih =>
    intro pre t ht
    rw [replaceAllLoop, find_append, find_zero_eq_firstOccurrence]
    simp only [substituteFuel]
    cases hf : firstOccurrence x t with
    | none => simp
    | some p =>
      obtain ⟨_, hocc, _⟩ := firstOccurrenceFrom_some x t _ 0 p hf
      have hp : p + x.length ≤ t.length := hocc.1
      have hle : p + pre.length ≤ pre.length + t.length := by omega
      simp only [Option.map_some', replaceAllBody, replace, List.length_append, hle, if_true,
        List.take_length, Outcome.ok_bind, Outcome.pure_eq]
      have e1 : List.take (p + pre.length) (pre ++ t) ++ r ++
          List.drop (p + pre.length + x.length) (pre ++ t) =
          (pre ++ t.take p ++ r) ++ t.drop (p + x.length) := by
        have a1 : p + pre.length = pre.length + p := by omega
        have a2 : pre.length + p + x.length = pre.length + (p + x.length) := by omega
        rw [a1, a2, List.take_append, List.drop_append]
      have e2 : p + pre.length + r.length = (pre ++ t.take p ++ r).length := by
        simp only [List.length_append, List.length_take]
        omega
      rw [e1, e2, ih (pre ++ t.take p ++ r) (t.drop (p + x.length))
        (by simp only [List.length_drop]; omega)]
      simp

theorem replaceAll_eq_substitute (s x r : List Byte) (hx : x ≠ []) :
    replaceAll s x r = .ok (substitute x r s) := by
  have hne : x.isEmpty = false := by
    cases x with
    | nil => exact absurd rfl hx
    | cons a l => rfl
  have h := replaceAllLoop_eq x r hx s.length [] s (le_refl _)
  simp only [List.nil_append, List.length_nil] at h
  simp [replaceAll, CORRADE_ASSERT, hne, h, substitute]


/-- C6: for a non-empty search `x`, `replaceAll(s, x, r)` is the left-to-right
non-overlapping substitution `R(s)`, where `R(s) = s` when `x` does not occur in
`s` and `R(s) = s[0,p) ++ r ++ R(s[p+|x|,|s|))` when `p` is the offset of the
first occurrence of `x` in `s`; the inserted bytes of `r` are never searched. -/
theorem replaceAll_substitution (s x r : List Byte) (hx : x ≠ []) :
    replaceAll s x r = .ok (substitute x r s) ∧
    ((∀ q, ¬ OccursAt x s q) → substitute x r s = s) ∧
    (∀ p, OccursAt x s p → (∀ q, q < p → ¬ OccursAt x s q) →
      substitute x r s = s.take p ++ r ++ substitute x r (s.drop (p + x.length))) :=
  ⟨replaceAll_eq_substitute s x r hx, substitute_absent x r s,
    fun p hocc hmin => substitute_found x r s hx p hocc hmin⟩

/-- C6 at `replaceAll("aaa", "a", "aa")`, which is `"aaaaaa"`. -/
theorem replaceAll_substitution_witness :
    replaceAll [97, 97, 97] [97] [97, 97] = .ok [97, 97, 97, 97, 97, 97] :=
  (replaceAll_substitution [97, 97, 97] [97] [97, 97] (by decide)).1.trans (by decide)

/-- C7: for a non-empty search `x` the loop of `replaceAll` terminates.  The loop
condition moves the search offset from `found` forward to a match at `p`; the
body then leaves a string and an offset whose difference is smaller by exactly
`|x|` than `|string| - p`, hence smaller than `|string| - found`.  So `replaceAll`
returns, and so does its loop for every iteration bound above `|s|`. -/
theorem replaceAll_terminates (s x r : List Byte) (hx : x ≠ []) :
    (∀ (string : List Byte) (found p : Nat), find string x found x.length = some p →
      found ≤ p ∧ p ≤ string.length ∧
      ∃ string', replaceAllBody x r string p = .ok (string', p + r.length) ∧
        p + r.length ≤ string'.length ∧
        (string'.length - (p + r.length)) + x.length = string.length - p ∧
        string'.length - (p + r.length) < string.length - found) ∧
    (∃ out, replaceAll s x r = .ok out ∧
      ∀ fuel, s.length < fuel → replaceAllLoop x r fuel s 0 = .ok out) := by
  have hxl : 0 < x.length := List.length_pos.2 hx
  constructor
  · intro string found p hfind
    obtain ⟨h1, hocc, _⟩ := find_some string x found p hfind
    have hp : p + x.length ≤ string.length := hocc.1
    have hle : p ≤ string.length := by omega
    refine ⟨h1, hle, string.take p ++ r ++ string.drop (p + x.length), ?_, ?_, ?_, ?_⟩
    · simp [replaceAllBody, replace, hle]
    · simp only [List.length_append, List.length_take, List.length_drop]; omega
    · simp only [List.length_append, List.length_take, List.length_drop]; omega
    · simp only [List.length_append, List.length_take, List.length_drop]; omega
  · refine ⟨substitute x r s, replaceAll_eq_substitute s x r hx, ?_⟩
    intro fuel hfuel
    cases fuel with
    | zero => omega
    | succ n =>
      have h := replaceAllLoop_eq x r hx n [] s (by omega)
      simp only [List.nil_append, List.length_nil] at h
      rw [h, substituteFuel_stable x r hx n s (by omega)]
      rfl

/-- C7 at `replaceAll("aaa", "a", "aa")`: the first match is at offset 0, the
body leaves `"aaaa"` and offset 2, and the call returns. -/
theorem replaceAll_terminates_witness :
    (∃ string', replaceAllBody [97] [97, 97] [97, 97, 97] 0 = .ok (string', 2) ∧
      (string'.length - 2) + 1 = 3 - 0) ∧
    ∃ out, replaceAll [97, 97, 97] [97] [97, 97] = .ok out := by
  have h := replaceAll_terminates [97, 97, 97] [97] [97, 97] (by decide)
  obtain ⟨_, _, t, h1, _, h2, _⟩ := h.1 [97, 97, 97] 0 0 (by decide)
  obtain ⟨out, h3, _⟩ := h.2
  exact ⟨⟨t, h1, h2⟩, out, h3⟩

/-- C8: `replaceAll(s, x, r)` ends in the failed assertion exactly when the search
`x` is empty, and returns a string exactly when `x` is not empty; when a
non-empty `x` does not occur in `s`, it returns `s`. -/
theorem replaceAll_assertion_iff (s x r : List Byte) :
    (replaceAll s x r = .assertion ↔ x = []) ∧
    ((∃ out, replaceAll s x r = .ok out) ↔ x ≠ []) ∧
    (x ≠ [] → (∀ q, ¬ OccursAt x s q) → replaceAll s x r = .ok s) := by
  have hempty : x = [] → replaceAll s x r = .assertion := by
    intro hx
    subst hx
    rfl
  refine ⟨⟨?_, hempty⟩, ⟨?_, ?_⟩, ?_⟩
  · intro h
    by_contra hx
    rw [replaceAll_eq_substitute s x r hx] at h
    cases h
  · rintro ⟨out, h⟩ hx
    rw [hempty hx] at h
    cases h
  · intro hx
    exact ⟨_, replaceAll_eq_substitute s x r hx⟩
  · intro hx habs
    rw [replaceAll_eq_substitute s x r hx, substitute_absent x r s habs]

/-- C8 at the search `"="`, absent from `"abc"`, and at the empty search. -/
theorem replaceAll_assertion_iff_witness :
    replaceAll [97, 98, 99] [61] [120] = .ok [97, 98, 99] ∧
    replaceAll [97, 98, 99] [] [120] = .assertion := by
  refine ⟨(replaceAll_assertion_iff [97, 98, 99] [61] [120]).2.2 (by decide) ?_,
    (replaceAll_assertion_iff [97, 98, 99] [] [120]).1.2 rfl⟩
  intro q h
  have hq : q + 1 ≤ 3 := h.1
  have hq3 : q < 3 := by omega
  interval_cases q <;> exact absurd h (by decide)

/-! ## Affixes -/

theorem beginsWith_length (s a : List Byte) (h : beginsWith s a = true) :
    a.length ≤ s.length := by
  unfold beginsWith at h
  split at h
  · cases h
  · omega

theorem endsWith_length (s a : List Byte) (h : endsWith s a = true) :
    a.length ≤ s.length := by
  unfold endsWith at h
  split at h
  · cases h
  · omega

theorem sizeSub_eq (a b : Nat) (ha : a < 2 ^ 64) (hb : b ≤ a) : sizeSub a b = a - b := by
  unfold sizeSub
  have h1 : a % 2 ^ 64 = a := Nat.mod_eq_of_lt ha
  have h2 : b % 2 ^ 64 = b := Nat.mod_eq_of_lt (by omega)
  rw [h1, h2]
  have h3 : a + 2 ^ 64 - b = (a - b) + 2 ^ 64 := by omega
  rw [h3, Nat.add_mod_right]
  exact Nat.mod_eq_of_lt (by omega)

/-- C9: `stripPrefix(s, a)` fails its assertion exactly when `beginsWith(s, a)`
is false and otherwise returns `s` without its first `|a|` bytes;
`stripSuffix(s, a)` fails its assertion exactly when `endsWith(s, a)` is false
and otherwise returns `s` without its last `|a|` bytes, the `size_t` subtraction
`|s| - |a|` not wrapping around.  (`hsize`: the size of a `std::string` is a
`size_t` value.) -/
theorem strip_affix (s a : List Byte) (hsize : s.length < 2 ^ 64) :
    (stripPrefix s a = .assertion ↔ beginsWith s a = false) ∧
    (beginsWith s a = true →
      stripPrefix s a = .ok (s.drop a.length) ∧
      (s.drop a.length).length + a.length = s.length) ∧
    (stripSuffix s a = .assertion ↔ endsWith s a = false) ∧
    (endsWith s a = true →
      a.length ≤ s.length ∧ sizeSub s.length a.length = s.length - a.length ∧
      stripSuffix s a = .ok (s.take (s.length - a.length)) ∧
      (s.take (s.length - a.length)).length + a.length = s.length) := by
  have hp : beginsWith s a = true →
      stripPrefix s a = .ok (s.drop a.length) := by
    intro h
    simp [stripPrefix, CORRADE_ASSERT, h, erase]
  have hs : endsWith s a = true →
      stripSuffix s a = .ok (s.take (s.length - a.length)) := by
    intro h
    have hl := endsWith_length s a h
    have hsub := sizeSub_eq s.length a.length hsize hl
    simp [stripSuffix, CORRADE_ASSERT, h, erase, hsub]
  refine ⟨?_, ?_, ?_, ?_⟩
  · cases h : beginsWith s a with
    | true => simp [hp h]
    | false => simp [stripPrefix, CORRADE_ASSERT, h]; rfl
  · intro h
    have hl := beginsWith_length s a h
    exact ⟨hp h, by simp only [List.length_drop]; omega⟩
  · cases h : endsWith s a with
    | true => simp [hs h]
    | false => simp [stripSuffix, CORRADE_ASSERT, h]; rfl
  · intro h
    have hl := endsWith_length s a h
    exact ⟨hl, sizeSub_eq s.length a.length hsize hl, hs h,
      by simp only [List.length_take]; omega⟩

/-- C9 at `stripPrefix("hello", "he")`, `stripPrefix("hello", "xy")` and
`stripSuffix("hello", "lo")`. -/
theorem strip_affix_witness :
    stripPrefix [104, 101, 108, 108, 111] [104, 101] = .ok [108, 108, 111] ∧
    stripPrefix [104, 101, 108, 108, 111] [120, 121] = .assertion ∧
    stripSuffix [104, 101, 108, 108, 111] [108, 111] = .ok [104, 101, 108] :=
  ⟨((strip_affix [104, 101, 108, 108, 111] [104, 101] (by decide)).2.1 (by decide)).1,
    (strip_affix [104, 101, 108, 108, 111] [120, 121] (by decide)).1.2 (by decide),
    ((strip_affix [104, 101, 108, 108, 111] [108, 111] (by decide)).2.2.2 (by decide)).2.2.1⟩

/-- C4 on the code: `strncmp` stops at a zero byte, so `beginsWith("a\0b", "a\0c")`
and `endsWith("a\0b", "a\0c")` are true although the third bytes differ. -/
theorem beginsWith_endsWith_zero_byte :
    beginsWith [97, 0, 98] [97, 0, 99] = true ∧
    ([97, 0, 98] : List Byte).take 3 ≠ [97, 0, 99] ∧
    endsWith [97, 0, 98] [97, 0, 99] = true ∧
    ([97, 0, 98] : List Byte).drop (3 - 3) ≠ [97, 0, 99] := by
  decide


/-! ## Join -/

theorem intercalate_singleton (d s : List Byte) : d.intercalate [s] = s := by
  simp [List.intercalate]

theorem intercalate_cons_cons (d s s' : List Byte) (rest : List (List Byte)) :
    d.intercalate (s :: s' :: rest) = s ++ d ++ d.intercalate (s' :: rest) := by
  simp [List.intercalate]

theorem foldl_joinSize (d : List Byte) :
    ∀ (strings : List (List Byte)) (acc : Nat),
      strings.foldl (fun size s => size + (s.length + d.length)) acc =
        acc + (strings.map (fun s => s.length + d.length)).sum := by
  intro strings
  induction strings with
  | nil => intro acc; simp
  | cons s rest ih =>
    intro acc
    simp only [List.foldl_cons, List.map_cons, List.sum_cons, ih]
    omega

theorem length_intercalate_add (d : List Byte) :
    ∀ (strings : List (List Byte)), strings ≠ [] →
      (d.intercalate strings).length + d.length =
        (strings.map (fun s => s.length + d.length)).sum := by
  intro strings
  induction strings with
  | nil => intro h; exact absurd rfl h
  | cons s rest ih =>
    intro _
    cases rest with
    | nil => simp [intercalate_singleton]
    | cons s' rest' =>
      have := ih (List.cons_ne_nil _ _)
      rw [intercalate_cons_cons]
      simp only [List.length_append, List.map_cons, List.sum_cons] at this ⊢
      omega

/-- The size `join` computes up front is the length of the delimited concatenation. -/
theorem joinSize_eq (strings : List (List Byte)) (d : List Byte) :
    joinSize strings d = (d.intercalate strings).length := by
  unfold joinSize
  simp only [foldl_joinSize, Nat.zero_add]
  cases strings with
  | nil => simp [List.intercalate]
  | cons s rest =>
    have h := length_intercalate_add d (s :: rest) (List.cons_ne_nil _ _)
    split
    · omega
    · omega

theorem joinLoop_cons (size : Nat) (d s : List Byte) (strings : List (List Byte))
    (result : List Byte) :
    joinLoop size d (s :: strings) result =
      joinLoop size d strings
        (if (result ++ s).length ≠ size then result ++ s ++ d else result ++ s) := by
  simp only [joinLoop, List.take_length]

theorem joinLoop_eq (size : Nat) (d : List Byte) :
    ∀ (strings : List (List Byte)) (result : List Byte), strings ≠ [] →
      size = result.length + (d.intercalate strings).length →
      joinLoop size d strings result = result ++ d.intercalate strings := by
  intro strings
  induction strings with
  | nil => intro _ h; exact absurd rfl h
  | cons s rest ih =>
    intro result _ hsize
    cases rest with
    | nil =>
      rw [intercalate_singleton] at hsize ⊢
      simp [joinLoop, hsize]
    | cons s' rest' =>
      rw [intercalate_cons_cons] at hsize ⊢
      simp only [List.length_append] at hsize
      rw [joinLoop_cons]
      simp only [List.length_append]
      by_cases hfull : result.length + s.length = size
      · have hd : d = [] := List.length_eq_zero.1 (by omega)
        have hi : d.intercalate (s' :: rest') = [] := List.length_eq_zero.1 (by omega)
        simp only [hfull, ne_eq, not_true_eq_false, if_false]
        rw [ih (result ++ s) (List.cons_ne_nil _ _)
          (by simp only [List.length_append]; omega)]
        simp [hd]
      · simp only [ne_eq, hfull, not_false_eq_true, if_true]
        rw [ih (result ++ s ++ d) (List.cons_ne_nil _ _)
          (by simp only [List.length_append]; omega)]
        simp

/-- The program's `join` is the concatenation with `delimiter` between the elements. -/
theorem join_eq_intercalate (strings : List (List Byte)) (d : List Byte) :
    join strings d = d.intercalate strings := by
  unfold join
  cases strings with
  | nil => simp [joinLoop, List.intercalate]
  | cons s rest =>
    rw [joinLoop_eq _ d (s :: rest) [] (List.cons_ne_nil _ _)
      (by simp [joinSize_eq])]
    simp


/-! ## Split -/

theorem scanByte_some (c : Byte) :
    ∀ (t : List Byte) (k j : Nat), scanByte c t k = some j →
      ∃ u w, t = u ++ c :: w ∧ (∀ b, b ∈ u → (b == c) = false) ∧ j = k + u.length := by
  intro t
  induction t with
  | nil => intro k j h; cases h
  | cons b rest ih =>
    intro k j h
    simp only [scanByte] at h
    split at h
    · rename_i hb
      subst hb
      exact ⟨[], rest, rfl, by simp, by simpa using (Option.some.inj h).symm⟩
    · rename_i hb
      obtain ⟨u, w, h1, h2, h3⟩ := ih (k + 1) j h
      refine ⟨b :: u, w, by simp [h1], ?_, by simp; omega⟩
      intro a ha
      rcases List.mem_cons.1 ha with rfl | ha
      · simpa using hb
      · exact h2 a ha

theorem scanByte_none (c : Byte) :
    ∀ (t : List Byte) (k : Nat), scanByte c t k = none →
      ∀ b, b ∈ t → (b == c) = false := by
  intro t
  induction t with
  | nil => intro k _ b hb; cases hb
  | cons a rest ih =>
    intro k h b hb
    simp only [scanByte] at h
    split at h
    · cases h
    · rename_i ha
      rcases List.mem_cons.1 hb with rfl | hb
      · simpa using ha
      · exact ih (k + 1) h b hb

theorem scanAnyOf_spec (D : List Byte) :
    ∀ (t : List Byte) (k : Nat),
      (∃ u b w, t = u ++ b :: w ∧ decide (b ∈ D) = true ∧
        (∀ a, a ∈ u → decide (a ∈ D) = false) ∧ scanAnyOf D t k = k + u.length) ∨
      ((∀ a, a ∈ t → decide (a ∈ D) = false) ∧ scanAnyOf D t k = k + t.length) := by
  intro t
  induction t with
  | nil => intro k; right; simp [scanAnyOf]
  | cons b rest ih =>
    intro k
    simp only [scanAnyOf]
    by_cases hb : b ∈ D
    · left
      exact ⟨[], b, rest, rfl, by simpa using hb, by simp, by simp [hb]⟩
    · simp only [hb, if_false]
      rcases ih (k + 1) with ⟨u, b', w, h1, h2, h3, h4⟩ | ⟨h1, h2⟩
      · left
        refine ⟨b :: u, b', w, by simp [h1], h2, ?_, by simp [h4]; omega⟩
        intro a ha
        rcases List.mem_cons.1 ha with rfl | ha
        · simpa using hb
        · exact h3 a ha
      · right
        refine ⟨?_, by simp [h2]; omega⟩
        intro a ha
        rcases List.mem_cons.1 ha with rfl | ha
        · simpa using hb
        · exact h1 a ha

theorem scanFields_cons_false (isDelimiter : Byte → Bool) (keepEmpty : Bool)
    (b : Byte) (rest : List Byte) (start pos : Nat) (hb : isDelimiter b = false) :
    scanFields isDelimiter keepEmpty (b :: rest) start pos =
      scanFields isDelimiter keepEmpty rest start (pos + 1) := by
  simp only [scanFields, hb, Bool.false_eq_true, if_false]

theorem scanFields_cons_true (isDelimiter : Byte → Bool) (keepEmpty : Bool)
    (b : Byte) (rest : List Byte) (start pos : Nat) (hb : isDelimiter b = true) :
    scanFields isDelimiter keepEmpty (b :: rest) start pos =
      (if keepEmpty || decide (pos ≠ start) then
          ⟨start, pos - start⟩ :: (scanFields isDelimiter keepEmpty rest (pos + 1) (pos + 1)).1
        else (scanFields isDelimiter keepEmpty rest (pos + 1) (pos + 1)).1,
        (scanFields isDelimiter keepEmpty rest (pos + 1) (pos + 1)).2) := by
  simp only [scanFields, hb, if_true]

theorem scanFields_skip (isDelimiter : Byte → Bool) (keepEmpty : Bool) :
    ∀ (u w : List Byte) (start pos : Nat), (∀ b, b ∈ u → isDelimiter b = false) →
      scanFields isDelimiter keepEmpty (u ++ w) start pos =
        scanFields isDelimiter keepEmpty w start (pos + u.length) := by
  intro u
  induction u with
  | nil => intro w start pos _; simp
  | cons a u ih =>
    intro w start pos h
    have ha : isDelimiter a = false := h a (List.mem_cons_self _ _)
    rw [List.cons_append, scanFields_cons_false _ _ _ _ _ _ ha,
      ih w start (pos + 1) (fun b hb => h b (List.mem_cons_of_mem _ hb))]
    congr 1
    simp only [List.length_cons]
    omega

theorem scanFields_no_delimiter (isDelimiter : Byte → Bool) (keepEmpty : Bool)
    (t : List Byte) (start pos : Nat) (h : ∀ b, b ∈ t → isDelimiter b = false) :
    scanFields isDelimiter keepEmpty t start pos = ([], start) := by
  have := scanFields_skip isDelimiter keepEmpty t [] start pos h
  simpa [scanFields] using this

theorem scanFields_delimiter (isDelimiter : Byte → Bool) (keepEmpty : Bool)
    (u w : List Byte) (b : Byte) (start : Nat)
    (hu : ∀ a, a ∈ u → isDelimiter a = false) (hb : isDelimiter b = true) :
    scanFields isDelimiter keepEmpty (u ++ b :: w) start start =
      (if keepEmpty || decide (u.length ≠ 0) then
          ⟨start, u.length⟩ ::
            (scanFields isDelimiter keepEmpty w (start + u.length + 1) (start + u.length + 1)).1
        else (scanFields isDelimiter keepEmpty w (start + u.length + 1) (start + u.length + 1)).1,
        (scanFields isDelimiter keepEmpty w (start + u.length + 1) (start + u.length + 1)).2) := by
  rw [scanFields_skip isDelimiter keepEmpty u (b :: w) start start hu]
  rw [scanFields_cons_true _ _ _ _ _ _ hb]
  simp only [Nat.add_sub_cancel_left]
  by_cases h0 : u.length = 0
  · simp [h0]
  · have : start + u.length ≠ start := by omega
    simp [h0, this]

theorem drop_of_drop_eq_append_cons (s u w : List Byte) (b : Byte) (oldpos : Nat)
    (h : s.drop oldpos = u ++ b :: w) : s.drop (oldpos + u.length + 1) = w := by
  have : s.drop (oldpos + (u.length + 1)) = (s.drop oldpos).drop (u.length + 1) := by
    rw [List.drop_drop]
  rw [Nat.add_assoc, this, h]
  have h2 : (u ++ b :: w).drop (u.length + 1) = (b :: w).drop 1 := by
    rw [List.drop_append]
  rw [h2]
  rfl

/-- The loop of `split(StringView, char)` from `oldpos`, against `scanFields`. -/
theorem splitLoop_eq (s : List Byte) (c : Byte) :
    ∀ (fuel : Nat) (t : List Byte) (oldpos : Nat) (parts : List StringView),
      s.drop oldpos = t → oldpos + t.length = s.length → t.length < fuel →
      splitLoop s c fuel oldpos parts =
        .ok ((scanFields (fun b => b == c) true t oldpos oldpos).2,
          parts ++ (scanFields (fun b => b == c) true t oldpos oldpos).1) := by
  intro fuel
  induction fuel with
  | zero => intro t oldpos parts _ _ h; omega
  | succ f ih =>
    intro t oldpos parts hdrop hlen hfuel
    rw [splitLoop]
    by_cases hlt : oldpos < s.length
    · have hm : memchr s oldpos c (s.length - oldpos) = scanByte c t oldpos := by
        unfold memchr
        rw [hdrop]
        have : s.length - oldpos = t.length := by omega
        rw [this, List.take_length]
      simp only [hlt, if_true, hm]
      cases hscan : scanByte c t oldpos with
      | none =>
        rw [scanFields_no_delimiter _ _ t oldpos oldpos (scanByte_none c t oldpos hscan)]
        simp
      | some j =>
        obtain ⟨u, w, ht, hu, hj⟩ := scanByte_some c t oldpos j hscan
        have hlen2 : t.length = u.length + w.length + 1 := by
          rw [ht]; simp; omega
        have hsl : slice s oldpos j = .ok ⟨oldpos, u.length⟩ := by
          unfold slice
          have h1 : oldpos ≤ j ∧ j ≤ s.length := by omega
          have h2 : j - oldpos = u.length := by omega
          simp only [h1, and_self, if_true, h2]
        simp only [hsl, Outcome.ok_bind]
        rw [ih w (j + 1) (parts ++ [StringView.mk oldpos u.length])
          (by rw [hj]; exact drop_of_drop_eq_append_cons s u w c oldpos (hdrop.trans ht))
          (by omega) (by omega)]
        rw [ht, scanFields_delimiter _ _ u w c oldpos hu (by simp), hj]
        simp
    · have ht : t = [] := List.length_eq_zero.1 (by omega)
      subst ht
      simp [hlt, scanFields]

/-- The loop of `splitWithoutEmptyParts(StringView, char)`, against `scanFields`. -/
theorem splitWithoutEmptyPartsLoop_eq (s : List Byte) (c : Byte) :
    ∀ (fuel : Nat) (t : List Byte) (oldpos : Nat) (parts : List StringView),
      s.drop oldpos = t → oldpos + t.length = s.length → t.length < fuel →
      splitWithoutEmptyPartsLoop s c fuel oldpos parts =
        .ok ((scanFields (fun b => b == c) false t oldpos oldpos).2,
          parts ++ (scanFields (fun b => b == c) false t oldpos oldpos).1) := by
  intro fuel
  induction fuel with
  | zero => intro t oldpos parts _ _ h; omega
  | succ f ih =>
    intro t oldpos parts hdrop hlen hfuel
    rw [splitWithoutEmptyPartsLoop]
    by_cases hlt : oldpos < s.length
    · have hm : memchr s oldpos c (s.length - oldpos) = scanByte c t oldpos := by
        unfold memchr
        rw [hdrop]
        have : s.length - oldpos = t.length := by omega
        rw [this, List.take_length]
      simp only [hlt, if_true, hm]
      cases hscan : scanByte c t oldpos with
      | none =>
        rw [scanFields_no_delimiter _ _ t oldpos oldpos (scanByte_none c t oldpos hscan)]
        simp
      | some j =>
        obtain ⟨u, w, ht, hu, hj⟩ := scanByte_some c t oldpos j hscan
        have hlen2 : t.length = u.length + w.length + 1 := by
          rw [ht]; simp; omega
        have hsl : slice s oldpos j = .ok ⟨oldpos, u.length⟩ := by
          unfold slice
          have h1 : oldpos ≤ j ∧ j ≤ s.length := by omega
          have h2 : j - oldpos = u.length := by omega
          simp only [h1, and_self, if_true, h2]
        have hw := drop_of_drop_eq_append_cons s u w c oldpos (hdrop.trans ht)
        rw [ht, scanFields_delimiter _ _ u w c oldpos hu (by simp)]
        by_cases h0 : u.length = 0
        · have hjo : ¬ j ≠ oldpos := by omega
          simp only [hjo, if_false, Outcome.pure_eq, Outcome.ok_bind]
          rw [ih w (j + 1) parts (by rw [hj]; exact hw) (by omega) (by omega), hj]
          simp [h0]
        · have hjo : j ≠ oldpos := by omega
          simp only [hjo, ne_eq, not_false_eq_true, if_true, hsl, Outcome.pure_eq,
            Outcome.ok_bind]
          rw [ih w (j + 1) (parts ++ [StringView.mk oldpos u.length]) (by rw [hj]; exact hw)
            (by omega) (by omega), hj]
          simp [h0]
    · have ht : t = [] := List.length_eq_zero.1 (by omega)
      subst ht
      simp [hlt, scanFields]


/-- The loop of `splitWithoutEmptyParts(StringView, StringView)`, against
`scanFields`: the loop itself emits the last part when it is not empty, and then
leaves `oldpos` one past the end of the string. -/
theorem splitWithoutEmptyPartsSetLoop_eq (s D : List Byte) :
    ∀ (fuel : Nat) (t : List Byte) (oldpos : Nat) (parts : List StringView),
      s.drop oldpos = t → oldpos + t.length = s.length → t.length < fuel →
      splitWithoutEmptyPartsSetLoop s D fuel oldpos parts =
        .ok (if (scanFields (fun b => decide (b ∈ D)) false t oldpos oldpos).2 < s.length
            then s.length + 1
            else (scanFields (fun b => decide (b ∈ D)) false t oldpos oldpos).2,
          parts ++ (scanFields (fun b => decide (b ∈ D)) false t oldpos oldpos).1 ++
            (if (scanFields (fun b => decide (b ∈ D)) false t oldpos oldpos).2 < s.length
              then [StringView.mk (scanFields (fun b => decide (b ∈ D)) false t oldpos oldpos).2
                (s.length - (scanFields (fun b => decide (b ∈ D)) false t oldpos oldpos).2)]
              else [])) := by
  intro fuel
  induction fuel with
  | zero => intro t oldpos parts _ _ h; omega
  | succ f ih =>
    intro t oldpos parts hdrop hlen hfuel
    rw [splitWithoutEmptyPartsSetLoop]
    by_cases hlt : oldpos < s.length
    · have hm : find_first_of s oldpos s.length D = some (scanAnyOf D t oldpos) := by
        unfold find_first_of
        rw [hdrop]
        have : s.length - oldpos = t.length := by omega
        rw [this, List.take_length]
      simp only [hlt, if_true, hm]
      rcases scanAnyOf_spec D t oldpos with ⟨u, b, w, ht, hb, hu, hj⟩ | ⟨hnone, hj⟩
      · have hlen2 : t.length = u.length + w.length + 1 := by
          rw [ht]; simp; omega
        have hsl : slice s oldpos (oldpos + u.length) = .ok ⟨oldpos, u.length⟩ := by
          unfold slice
          have h1 : oldpos ≤ oldpos + u.length ∧ oldpos + u.length ≤ s.length := by omega
          simp only [h1, and_self, if_true, Nat.add_sub_cancel_left]
        have hw := drop_of_drop_eq_append_cons s u w b oldpos (hdrop.trans ht)
        rw [hj, ht, scanFields_delimiter _ _ u w b oldpos hu hb]
        by_cases h0 : u.length = 0
        · have hjo : ¬ oldpos + u.length ≠ oldpos := by omega
          simp only [hjo, if_false, Outcome.pure_eq, Outcome.ok_bind]
          rw [ih w (oldpos + u.length + 1) parts hw (by omega) (by omega)]
          simp [h0]
        · have hjo : oldpos + u.length ≠ oldpos := by omega
          simp only [hjo, ne_eq, not_false_eq_true, if_true, hsl, Outcome.pure_eq,
            Outcome.ok_bind]
          rw [ih w (oldpos + u.length + 1) (parts ++ [StringView.mk oldpos u.length]) hw
            (by omega) (by omega)]
          simp [h0]
      · have hjn : scanAnyOf D t oldpos = s.length := by omega
        have hsl : slice s oldpos s.length = .ok ⟨oldpos, s.length - oldpos⟩ := by
          unfold slice
          have h1 : oldpos ≤ s.length ∧ s.length ≤ s.length := by omega
          simp only [h1, and_self, if_true]
        have hjo : s.length ≠ oldpos := by omega
        rw [hjn, scanFields_no_delimiter _ _ t oldpos oldpos hnone]
        simp only [hjo, ne_eq, not_false_eq_true, if_true, hsl, Outcome.pure_eq,
          Outcome.ok_bind, hlt]
        cases f with
        | zero => omega
        | succ f' =>
          rw [splitWithoutEmptyPartsSetLoop]
          simp
    · have ht : t = [] := List.length_eq_zero.1 (by omega)
      subst ht
      have h2 : ¬ (oldpos < s.length) := hlt
      simp [hlt, scanFields]

theorem scanFields_bounds (isDelimiter : Byte → Bool) (keepEmpty : Bool) :
    ∀ (t : List Byte) (start pos : Nat), start ≤ pos →
      start ≤ (scanFields isDelimiter keepEmpty t start pos).2 ∧
      (scanFields isDelimiter keepEmpty t start pos).2 ≤ pos + t.length ∧
      ∀ v, v ∈ (scanFields isDelimiter keepEmpty t start pos).1 →
        start ≤ v.data ∧ v.data + v.size < pos + t.length ∧
        (keepEmpty = false → 0 < v.size) := by
  intro t
  induction t with
  | nil => intro start pos hsp; simpa [scanFields] using hsp
  | cons b rest ih =>
    intro start pos hsp
    by_cases hb : isDelimiter b = true
    · rw [scanFields_cons_true _ _ _ _ _ _ hb]
      obtain ⟨h1, h2, h3⟩ := ih (pos + 1) (pos + 1) (le_refl _)
      refine ⟨by simp only; omega, by simp only [List.length_cons]; omega, ?_⟩
      intro v hv
      simp only [List.length_cons]
      have hrest : v ∈ (scanFields isDelimiter keepEmpty rest (pos + 1) (pos + 1)).1 →
          start ≤ v.data ∧ v.data + v.size < pos + (rest.length + 1) ∧
            (keepEmpty = false → 0 < v.size) := by
        intro hv'
        obtain ⟨g1, g2, g3⟩ := h3 v hv'
        exact ⟨by omega, by omega, g3⟩
      by_cases hk : (keepEmpty || decide (pos ≠ start)) = true
      · simp only [hk, if_true] at hv
        rcases List.mem_cons.1 hv with rfl | hv'
        · refine ⟨le_refl _, by simp only; omega, ?_⟩
          intro hkeep
          simp only [hkeep, Bool.false_or, decide_eq_true_eq] at hk
          simp only
          omega
        · exact hrest hv'
      · simp only [hk, Bool.false_eq_true, if_false] at hv
        exact hrest hv
    · have hb' : isDelimiter b = false := by simpa using hb
      rw [scanFields_cons_false _ _ _ _ _ _ hb']
      obtain ⟨h1, h2, h3⟩ := ih start (pos + 1) (by omega)
      refine ⟨h1, by simp only [List.length_cons]; omega, ?_⟩
      intro v hv
      obtain ⟨g1, g2, g3⟩ := h3 v hv
      exact ⟨g1, by simp only [List.length_cons]; omega, g3⟩

/-- What `split(StringView, char)` returns: the parts closed by a delimiter and,
unless the string is empty, the part after the last delimiter. -/
theorem split_eq (s : List Byte) (c : Byte) :
    split s c =
      .ok ((scanFields (fun b => b == c) true s 0 0).1 ++
        (if s.isEmpty then []
          else [StringView.mk (scanFields (fun b => b == c) true s 0 0).2
            (s.length - (scanFields (fun b => b == c) true s 0 0).2)])) := by
  unfold split
  rw [splitLoop_eq s c (s.length + 1) s 0 [] rfl (by omega) (by omega)]
  obtain ⟨_, h2, _⟩ := scanFields_bounds (fun b => b == c) true s 0 0 (le_refl _)
  cases s with
  | nil => simp [scanFields]
  | cons b rest =>
    have h2' : (scanFields (fun b => b == c) true (b :: rest) 0 0).2 ≤ rest.length + 1 := by
      simpa using h2
    simp [suffix, slice, h2']

/-- What `splitWithoutEmptyParts(StringView, char)` returns: the non-empty parts
closed by a delimiter and the part after the last delimiter when not empty. -/
theorem splitWithoutEmptyParts_eq (s : List Byte) (c : Byte) :
    splitWithoutEmptyParts s c =
      .ok ((scanFields (fun b => b == c) false s 0 0).1 ++
        (if (scanFields (fun b => b == c) false s 0 0).2 < s.length then
            [StringView.mk (scanFields (fun b => b == c) false s 0 0).2
              (s.length - (scanFields (fun b => b == c) false s 0 0).2)]
          else [])) := by
  unfold splitWithoutEmptyParts
  rw [splitWithoutEmptyPartsLoop_eq s c (s.length + 1) s 0 [] rfl (by omega) (by omega)]
  obtain ⟨_, h2, _⟩ := scanFields_bounds (fun b => b == c) false s 0 0 (le_refl _)
  cases s with
  | nil => simp [scanFields]
  | cons b rest =>
    have h2' : (scanFields (fun b => b == c) false (b :: rest) 0 0).2 ≤ rest.length + 1 := by
      simpa using h2
    by_cases hlt : (scanFields (fun b => b == c) false (b :: rest) 0 0).2 < rest.length + 1
    · simp [suffix, slice, h2', hlt]
    · simp [hlt]

/-- What `splitWithoutEmptyParts(StringView, StringView)` returns. -/
theorem splitWithoutEmptyPartsSet_eq (s D : List Byte) :
    splitWithoutEmptyPartsSet s D =
      .ok ((scanFields (fun b => decide (b ∈ D)) false s 0 0).1 ++
        (if (scanFields (fun b => decide (b ∈ D)) false s 0 0).2 < s.length then
            [StringView.mk (scanFields (fun b => decide (b ∈ D)) false s 0 0).2
              (s.length - (scanFields (fun b => decide (b ∈ D)) false s 0 0).2)]
          else [])) := by
  unfold splitWithoutEmptyPartsSet
  rw [splitWithoutEmptyPartsSetLoop_eq s D (s.length + 1) s 0 [] rfl (by omega) (by omega)]
  obtain ⟨_, h2, _⟩ := scanFields_bounds (fun b => decide (b ∈ D)) false s 0 0 (le_refl _)
  simp only [Nat.zero_add] at h2
  by_cases hlt : (scanFields (fun b => decide (b ∈ D)) false s 0 0).2 < s.length
  · simp [hlt]
  · have heq : (scanFields (fun b => decide (b ∈ D)) false s 0 0).2 = s.length := by omega
    simp [heq]


theorem intercalate_cons_of_ne_nil (d s : List Byte) (rest : List (List Byte))
    (h : rest ≠ []) : d.intercalate (s :: rest) = s ++ d ++ d.intercalate rest := by
  cases rest with
  | nil => exact absurd rfl h
  | cons s' rest' => exact intercalate_cons_cons d s s' rest'

theorem drop_succ_of_drop_eq_cons (s rest : List Byte) (b : Byte) (pos : Nat)
    (h : s.drop pos = b :: rest) : s.drop (pos + 1) = rest := by
  have := drop_of_drop_eq_append_cons s [] rest b pos (by simpa using h)
  simpa using this

/-- Joining the parts that `scanFields` closes and the rest of the string with
the delimiter gives back the string from `start` on. -/
theorem scanFields_intercalate (s : List Byte) (c : Byte) :
    ∀ (t : List Byte) (start pos : Nat), s.drop pos = t → start ≤ pos →
      [c].intercalate
        (toStrings s (scanFields (fun b => b == c) true t start pos).1 ++
          [s.drop (scanFields (fun b => b == c) true t start pos).2]) = s.drop start := by
  intro t
  induction t with
  | nil =>
    intro start pos _ _
    simp [scanFields, toStrings, intercalate_singleton]
  | cons b rest ih =>
    intro start pos hdrop hsp
    have hrest := drop_succ_of_drop_eq_cons s rest b pos hdrop
    by_cases hb : (b == c) = true
    · have hbc : b = c := by simpa using hb
      rw [scanFields_cons_true (fun b => b == c) true b rest start pos hb]
      simp only [Bool.true_or, if_true, toStrings, List.map_cons, List.cons_append]
      rw [intercalate_cons_of_ne_nil _ _ _ (by simp)]
      have h := ih (pos + 1) (pos + 1) hrest (le_refl _)
      simp only [toStrings] at h
      rw [h, hrest]
      have hsplit : s.drop start =
          (s.drop start).take (pos - start) ++ (s.drop start).drop (pos - start) :=
        (List.take_append_drop _ _).symm
      rw [List.drop_drop, Nat.add_sub_cancel' hsp, hdrop] at hsplit
      rw [hsplit, hbc]
      simp [StringView.bytes]
    · have hb' : (b == c) = false := by simpa using hb
      rw [scanFields_cons_false (fun b => b == c) true b rest start pos hb']
      exact ih start (pos + 1) hrest (by omega)

/-- C1: `split(const std::string&, char)` returns, and joining what it returns
with the one-byte delimiter `c` gives back `s`, for every byte string `s`
(empty, made of delimiters only, starting or ending with one) and every byte `c`. -/
theorem join_split_roundtrip (s : List Byte) (c : Byte) :
    ∃ parts, splitStl s c = .ok parts ∧ join parts [c] = s := by
  unfold splitStl
  rw [split_eq]
  refine ⟨_, rfl, ?_⟩
  rw [join_eq_intercalate]
  cases hs : s with
  | nil => simp [scanFields, toStrings, List.intercalate]
  | cons b rest =>
    rw [← hs]
    have hne : s.isEmpty = false := by rw [hs]; rfl
    simp only [hne, Bool.false_eq_true, if_false]
    have h := scanFields_intercalate s c s 0 0 rfl (le_refl _)
    simp only [toStrings, List.drop_zero] at h
    simp only [toStrings, List.map_append, List.map_cons, List.map_nil, StringView.bytes]
    have hlen : (s.drop (scanFields (fun b => b == c) true s 0 0).2).take
        (s.length - (scanFields (fun b => b == c) true s 0 0).2) =
        s.drop (scanFields (fun b => b == c) true s 0 0).2 := by
      apply List.take_of_length_le
      simp
    rw [hlen]
    exact h

/-- The parts of the two splits that drop empty parts are not empty and lie
inside the string. -/
theorem scanFields_parts_nonempty (isDelimiter : Byte → Bool) (s : List Byte) :
    (∀ v, v ∈ (scanFields isDelimiter false s 0 0).1 ++
        (if (scanFields isDelimiter false s 0 0).2 < s.length then
            [StringView.mk (scanFields isDelimiter false s 0 0).2
              (s.length - (scanFields isDelimiter false s 0 0).2)]
          else []) →
      0 < v.size ∧ v.data + v.size ≤ s.length) := by
  obtain ⟨_, h2, h3⟩ := scanFields_bounds isDelimiter false s 0 0 (le_refl _)
  intro v hv
  rcases List.mem_append.1 hv with hv | hv
  · obtain ⟨_, g2, g3⟩ := h3 v hv
    exact ⟨g3 rfl, by omega⟩
  · split at hv
    · rename_i hlt
      rw [List.mem_singleton] at hv
      subst hv
      simp only
      omega
    · cases hv

theorem bytes_ne_nil (s : List Byte) (v : StringView) (h1 : 0 < v.size)
    (h2 : v.data + v.size ≤ s.length) : StringView.bytes s v ≠ [] := by
  intro h
  have := congrArg List.length h
  simp only [StringView.bytes, List.length_take, List.length_drop, List.length_nil] at this
  omega

theorem toStrings_ne_nil (s : List Byte) (parts : List StringView)
    (h : ∀ v, v ∈ parts → 0 < v.size ∧ v.data + v.size ≤ s.length) :
    ∀ x, x ∈ toStrings s parts → x ≠ [] := by
  intro x hx
  obtain ⟨v, hv, rfl⟩ := List.mem_map.1 hx
  exact bytes_ne_nil s v (h v hv).1 (h v hv).2

/-- C10: each `splitWithoutEmptyParts` (delimiter byte `c`, delimiter set `D`,
default whitespace set) returns; none of the views it returns has size zero and
none of the strings copied from them is empty; for the empty string it returns
no part at all. -/
theorem splitWithoutEmptyParts_no_empty_part (s : List Byte) (c : Byte) (D : List Byte) :
    (∃ parts, splitWithoutEmptyParts s c = .ok parts ∧
      splitWithoutEmptyPartsStl s c = .ok (toStrings s parts) ∧
      (∀ v, v ∈ parts → v.size ≠ 0) ∧ (∀ x, x ∈ toStrings s parts → x ≠ []) ∧
      (s = [] → parts = [])) ∧
    (∃ parts, splitWithoutEmptyPartsSet s D = .ok parts ∧
      splitWithoutEmptyPartsSetStl s D = .ok (toStrings s parts) ∧
      (∀ v, v ∈ parts → v.size ≠ 0) ∧ (∀ x, x ∈ toStrings s parts → x ≠ []) ∧
      (s = [] → parts = [])) ∧
    (∃ parts, splitWithoutEmptyPartsWhitespace s = .ok parts ∧
      splitWithoutEmptyPartsWhitespaceStl s = .ok (toStrings s parts) ∧
      (∀ v, v ∈ parts → v.size ≠ 0) ∧ (∀ x, x ∈ toStrings s parts → x ≠ []) ∧
      (s = [] → parts = [])) := by
  have key : ∀ (isDelimiter : Byte → Bool),
      (∀ v, v ∈ (scanFields isDelimiter false s 0 0).1 ++
          (if (scanFields isDelimiter false s 0 0).2 < s.length then
              [StringView.mk (scanFields isDelimiter false s 0 0).2
                (s.length - (scanFields isDelimiter false s 0 0).2)]
            else []) → v.size ≠ 0) ∧
      (∀ x, x ∈ toStrings s ((scanFields isDelimiter false s 0 0).1 ++
          (if (scanFields isDelimiter false s 0 0).2 < s.length then
              [StringView.mk (scanFields isDelimiter false s 0 0).2
                (s.length - (scanFields isDelimiter false s 0 0).2)]
            else [])) → x ≠ []) ∧
      (s = [] → (scanFields isDelimiter false s 0 0).1 ++
          (if (scanFields isDelimiter false s 0 0).2 < s.length then
              [StringView.mk (scanFields isDelimiter false s 0 0).2
                (s.length - (scanFields isDelimiter false s 0 0).2)]
            else []) = []) := by
    intro isDelimiter
    have hp := scanFields_parts_nonempty isDelimiter s
    refine ⟨fun v hv => by have := (hp v hv).1; omega, toStrings_ne_nil s _ hp, ?_⟩
    intro hs
    subst hs
    simp [scanFields]
  refine ⟨?_, ?_, ?_⟩
  · refine ⟨_, splitWithoutEmptyParts_eq s c, ?_, key _⟩
    simp [splitWithoutEmptyPartsStl, splitWithoutEmptyParts_eq]
  · refine ⟨_, splitWithoutEmptyPartsSet_eq s D, ?_, key _⟩
    simp [splitWithoutEmptyPartsSetStl, splitWithoutEmptyPartsSet_eq]
  · refine ⟨_, splitWithoutEmptyPartsSet_eq s Whitespace, ?_, key _⟩
    simp [splitWithoutEmptyPartsWhitespaceStl, splitWithoutEmptyPartsWhitespace,
      splitWithoutEmptyPartsSet_eq]


/-! ## Affixes without zero bytes, and evaluations -/

theorem strncmp_eq_zero_iff :
    ∀ (count : Nat) (lhs rhs : List Byte), count ≤ lhs.length → count ≤ rhs.length →
      (∀ b, b ∈ rhs.take count → b ≠ 0) →
      (strncmp lhs rhs count = 0 ↔ lhs.take count = rhs.take count) := by
  intro count
  induction count with
  | zero => intro lhs rhs _ _ _; simp [strncmp]
  | succ n ih =>
    intro lhs rhs hl hr hz
    cases lhs with
    | nil => simp at hl
    | cons a lhs' =>
      cases rhs with
      | nil => simp at hr
      | cons b rhs' =>
        simp only [List.length_cons, Nat.add_le_add_iff_right] at hl hr
        simp only [List.take_succ_cons, List.mem_cons] at hz
        by_cases hab : a = b
        · subst hab
          have ha : a ≠ 0 := hz a (Or.inl rfl)
          have := ih lhs' rhs' hl hr (fun x hx => hz x (Or.inr hx))
          simp [strncmp, ha, this]
        · have hv : (a.val : Int) - (b.val : Int) ≠ 0 := by
            intro h
            apply hab
            apply Fin.ext
            omega
          simp [strncmp, hab, hv]

/-- What holds of `beginsWith` and `endsWith` when the affix has no zero byte:
they are true exactly when the string is at least as long as the affix and its
first, or last, `|a|` bytes are the affix. -/
theorem affix_iff_of_zero_free (s a : List Byte) (hz : ∀ b, b ∈ a → b ≠ 0) :
    (beginsWith s a = true ↔ a.length ≤ s.length ∧ s.take a.length = a) ∧
    (endsWith s a = true ↔
      a.length ≤ s.length ∧ s.drop (s.length - a.length) = a) := by
  constructor
  · unfold beginsWith
    by_cases hlen : s.length < a.length
    · simp only [hlen, if_true, Bool.false_eq_true, false_iff, not_and]
      intro h; omega
    · have h := strncmp_eq_zero_iff a.length s a (by omega) (le_refl _)
        (by simpa using hz)
      simp only [hlen, if_false, beq_iff_eq, h, List.take_length]
      constructor
      · intro h'; exact ⟨by omega, h'⟩
      · intro h'; exact h'.2
  · unfold endsWith
    by_cases hlen : s.length < a.length
    · simp only [hlen, if_true, Bool.false_eq_true, false_iff, not_and]
      intro h; omega
    · have h := strncmp_eq_zero_iff a.length (s.drop (s.length - a.length)) a
        (by simp only [List.length_drop]; omega) (le_refl _) (by simpa using hz)
      have ht : (s.drop (s.length - a.length)).take a.length =
          s.drop (s.length - a.length) := by
        apply List.take_of_length_le
        simp only [List.length_drop]; omega
      simp only [hlen, if_false, beq_iff_eq, h, List.take_length, ht]
      constructor
      · intro h'; exact ⟨by omega, h'⟩
      · intro h'; exact h'.2

/-- The empty affix: `beginsWith(s, "")` and `endsWith(s, "")` are true for every `s`. -/
theorem affix_empty (s : List Byte) : beginsWith s [] = true ∧ endsWith s [] = true := by
  constructor
  · simp [beginsWith, strncmp]
  · simp [endsWith, strncmp]

theorem split_evaluation :
    splitStl [44, 97, 44, 44, 98, 44] 44 = .ok [[], [97], [], [98], []] ∧
    splitStl [] 44 = .ok [] ∧
    splitWithoutEmptyPartsStl [44, 97, 44, 44, 98, 44] 44 = .ok [[97], [98]] ∧
    splitWithoutEmptyPartsSetStl [44, 97, 44, 59, 98] [44, 59] = .ok [[97], [98]] ∧
    splitWithoutEmptyPartsSetStl [44, 97, 44, 59, 98] [] = .ok [[44, 97, 44, 59, 98]] ∧
    splitWithoutEmptyPartsWhitespaceStl [32, 97, 10, 9, 98, 32] = .ok [[97], [98]] ∧
    join [[], [97], [], [98], []] [44] = [44, 97, 44, 44, 98, 44] := by
  decide


/-! ## Join, continued -/

theorem sum_map_length_add (d : List Byte) :
    ∀ (xs : List (List Byte)),
      (xs.map (fun s => s.length + d.length)).sum =
        (xs.map List.length).sum + d.length * xs.length := by
  intro xs
  induction xs with
  | nil => simp
  | cons x rest ih =>
    simp only [List.map_cons, List.sum_cons, List.length_cons, ih, Nat.mul_add, Nat.mul_one]
    omega

/-- C16: `join(xs, d)` is `x1 ++ d ++ x2 ++ ... ++ d ++ xn`: empty for no element,
the element itself for one, and `x ++ d ++ join(rest, d)` for more, whether or
not elements are empty; its length is the size computed up front, which is 0
for no element and `(sum of |xi|) + |d| * (n - 1)` otherwise. -/
theorem join_delimited (xs : List (List Byte)) (d : List Byte) :
    join xs d = d.intercalate xs ∧
    join [] d = [] ∧
    (∀ x, join [x] d = x) ∧
    (∀ x y rest, join (x :: y :: rest) d = x ++ d ++ join (y :: rest) d) ∧
    (join xs d).length = joinSize xs d ∧
    joinSize [] d = 0 ∧
    (xs ≠ [] →
      joinSize xs d = (xs.map List.length).sum + d.length * (xs.length - 1)) := by
  refine ⟨join_eq_intercalate xs d, ?_, ?_, ?_, ?_, ?_, ?_⟩
  · rw [join_eq_intercalate]; simp [List.intercalate]
  · intro x; rw [join_eq_intercalate, intercalate_singleton]
  · intro x y rest
    rw [join_eq_intercalate, join_eq_intercalate, intercalate_cons_cons]
  · rw [join_eq_intercalate, joinSize_eq]
  · rw [joinSize_eq]; simp [List.intercalate]
  · intro hne
    rw [joinSize_eq]
    have h1 := length_intercalate_add d xs hne
    have h2 := sum_map_length_add d xs
    have h3 : 0 < xs.length := List.length_pos.2 hne
    obtain ⟨n, hn⟩ : ∃ n, xs.length = n + 1 := ⟨xs.length - 1, by omega⟩
    rw [hn] at h2 ⊢
    simp only [Nat.add_sub_cancel, Nat.mul_add, Nat.mul_one] at h2 ⊢
    omega

/-- C16 at `join(["a", "", "b"], ", ")`. -/
theorem join_delimited_witness :
    join [[97], [], [98]] [44, 32] = [97, 44, 32, 44, 32, 98] ∧
    joinSize [[97], [], [98]] [44, 32] = (1 + 0 + 1) + 2 * (3 - 1) := by
  have h := join_delimited [[97], [], [98]] [44, 32]
  exact ⟨h.1.trans (by decide), (h.2.2.2.2.2.2 (by decide)).trans (by decide)⟩

theorem foldl_joinWithoutEmptyPartsSize (d : List Byte) :
    ∀ (xs : List (List Byte)) (acc : Nat),
      xs.foldl (fun size s => if !s.isEmpty then size + (s.length + d.length) else size) acc =
        (xs.filter (fun s => !s.isEmpty)).foldl
          (fun size s => size + (s.length + d.length)) acc := by
  intro xs
  induction xs with
  | nil => intro acc; rfl
  | cons x rest ih =>
    intro acc
    cases hx : x.isEmpty with
    | true =>
      simp only [List.foldl_cons, List.filter, hx, Bool.not_true, Bool.false_eq_true, if_false]
      exact ih acc
    | false =>
      simp only [List.foldl_cons, List.filter, hx, Bool.not_false, if_true]
      exact ih _

theorem joinWithoutEmptyPartsLoop_eq (size : Nat) (d : List Byte) :
    ∀ (xs : List (List Byte)) (result : List Byte),
      joinWithoutEmptyPartsLoop size d xs result =
        joinLoop size d (xs.filter (fun s => !s.isEmpty)) result := by
  intro xs
  induction xs with
  | nil => intro result; rfl
  | cons x rest ih =>
    intro result
    cases hx : x.isEmpty with
    | true =>
      rw [joinWithoutEmptyPartsLoop]
      simp only [hx, if_true, List.filter, Bool.not_true]
      exact ih result
    | false =>
      rw [joinWithoutEmptyPartsLoop]
      simp only [hx, Bool.false_eq_true, if_false, List.filter, Bool.not_false]
      rw [joinLoop_cons, List.take_length]
      exact ih _

/-- C17: `joinWithoutEmptyParts(xs, d)` is `join` of `xs` without its zero-length
elements, so it is empty when every element is empty. -/
theorem joinWithoutEmptyParts_eq_join_filter (xs : List (List Byte)) (d : List Byte) :
    joinWithoutEmptyParts xs d = join (xs.filter (fun s => !s.isEmpty)) d ∧
    ((∀ x, x ∈ xs → x = []) → joinWithoutEmptyParts xs d = []) := by
  have h : joinWithoutEmptyParts xs d = join (xs.filter (fun s => !s.isEmpty)) d := by
    unfold joinWithoutEmptyParts join joinWithoutEmptyPartsSize joinSize
    rw [joinWithoutEmptyPartsLoop_eq, foldl_joinWithoutEmptyPartsSize]
  refine ⟨h, ?_⟩
  intro hall
  have hf : xs.filter (fun s => !s.isEmpty) = [] := by
    rw [List.filter_eq_nil_iff]
    intro x hx
    simp [hall x hx]
  rw [h, hf]
  rfl

/-- C17 at `joinWithoutEmptyParts(["", "a", "", "b"], ",")`, which is `"a,b"`. -/
theorem joinWithoutEmptyParts_eq_join_filter_witness :
    joinWithoutEmptyParts [[], [97], [], [98]] [44] = [97, 44, 98] ∧
    joinWithoutEmptyParts [[], []] [44] = [] :=
  ⟨(joinWithoutEmptyParts_eq_join_filter [[], [97], [], [98]] [44]).1.trans (by decide),
    (joinWithoutEmptyParts_eq_join_filter [[], []] [44]).2 (by decide)⟩

/-! ## Replace, continued -/

/-- C18: for a non-empty search `x`, `replaceFirst(s, x, r)` puts `r` in the place
of the first occurrence of `x`, at offset `p`, and leaves the rest of `s` as it
is: `s[0,p) ++ r ++ s[p+|x|,|s|)`; when `x` does not occur in `s` it returns `s`. -/
theorem replaceFirst_first_occurrence (s x r : List Byte) (hx : x ≠ []) :
    (∀ p, OccursAt x s p → (∀ q, q < p → ¬ OccursAt x s q) →
      replaceFirst s x r = .ok (s.take p ++ r ++ s.drop (p + x.length))) ∧
    ((∀ q, ¬ OccursAt x s q) → replaceFirst s x r = .ok s) := by
  have _ := hx
  constructor
  · intro p hocc hmin
    have hp : p + x.length ≤ s.length := hocc.1
    have hle : p ≤ s.length := by omega
    have hf := find_eq_of_first s x 0 p (Nat.zero_le _) hocc (fun q _ hq => hmin q hq)
    simp [replaceFirst, hf, replace, hle]
  · intro habs
    have hf := find_eq_none_of_absent s x 0 (fun q _ => habs q)
    simp [replaceFirst, hf]

/-- C18 at `replaceFirst("aba", "a", "xy")` and `replaceFirst("aba", "c", "xy")`. -/
theorem replaceFirst_first_occurrence_witness :
    replaceFirst [97, 98, 97] [97] [120, 121] = .ok [120, 121, 98, 97] ∧
    replaceFirst [97, 98, 97] [99] [120, 121] = .ok [97, 98, 97] := by
  refine ⟨(replaceFirst_first_occurrence [97, 98, 97] [97] [120, 121] (by decide)).1 0
      (by decide) (by decide),
    (replaceFirst_first_occurrence [97, 98, 97] [99] [120, 121] (by decide)).2 ?_⟩
  intro q h
  have hq : q + 1 ≤ 3 := h.1
  have hq3 : q < 3 := by omega
  interval_cases q <;> exact absurd h (by decide)

/-- C19, as the code behaves: the empty search is found by `find` at offset 0,
so `replaceFirst(s, "", r)` is `r ++ s`. -/
theorem replaceFirst_empty_search (s r : List Byte) :
    replaceFirst s [] r = .ok (r ++ s) := by
  have hf := find_eq_of_first s [] 0 0 (le_refl _) (by simp [OccursAt])
    (fun q _ hq => by omega)
  simp only [List.length_nil] at hf
  simp [replaceFirst, hf, replace]

/-- C19 fails as stated at `s = "a"`, `r = "x"`: `replaceFirst("a", "", "x")` is
`"xa"`, not `"a"`. -/
theorem replaceFirst_empty_search_counterexample :
    replaceFirst [97] [] [120] = .ok [120, 97] ∧ replaceFirst [97] [] [120] ≠ .ok [97] := by
  decide


/-! ## Trim -/

theorem scanNotOf_none (cs : List Byte) :
    ∀ (t : List Byte) (k : Nat), scanNotOf cs t k = none →
      t.dropWhile (fun b => decide (b ∈ cs)) = [] := by
  intro t
  induction t with
  | nil => intro k _; rfl
  | cons b rest ih =>
    intro k h
    simp only [scanNotOf] at h
    split at h
    · rename_i hb
      simp only [List.dropWhile, hb, decide_True]
      exact ih (k + 1) h
    · cases h

theorem scanNotOf_some (cs : List Byte) :
    ∀ (t : List Byte) (k j : Nat), scanNotOf cs t k = some j →
      ∃ i, j = k + i ∧ i ≤ t.length ∧ t.drop i = t.dropWhile (fun b => decide (b ∈ cs)) := by
  intro t
  induction t with
  | nil => intro k j h; cases h
  | cons b rest ih =>
    intro k j h
    simp only [scanNotOf] at h
    split at h
    · rename_i hb
      obtain ⟨i, h1, h2, h3⟩ := ih (k + 1) j h
      refine ⟨i + 1, by omega, by simp only [List.length_cons]; omega, ?_⟩
      simp only [List.dropWhile, hb, decide_True, List.drop_succ_cons]
      exact h3
    · rename_i hb
      refine ⟨0, by simpa using (Option.some.inj h).symm, Nat.zero_le _, ?_⟩
      simp [List.dropWhile, hb]

/-- `ltrimInPlace` leaves the string without its leading bytes of `cs`. -/
theorem ltrimInPlace_eq (s cs : List Byte) :
    ltrimInPlace s cs = .ok (s.dropWhile (fun b => decide (b ∈ cs))) := by
  unfold ltrimInPlace find_first_not_of
  rw [List.take_length, List.drop_zero]
  cases h : scanNotOf cs s 0 with
  | none => simp [erase, scanNotOf_none cs s 0 h]
  | some j =>
    obtain ⟨i, h1, _, h3⟩ := scanNotOf_some cs s 0 j h
    have hj : j = i := by omega
    subst hj
    simp [erase, h3]

theorem rscanNotOf_spec (cs s : List Byte) :
    ∀ (k : Nat), k ≤ s.length →
      (rscanNotOf cs s k = none ∧
        (s.take k).rdropWhile (fun b => decide (b ∈ cs)) = []) ∨
      (∃ j, rscanNotOf cs s k = some j ∧ j < k ∧
        (s.take k).rdropWhile (fun b => decide (b ∈ cs)) = s.take (j + 1)) := by
  intro k
  induction k with
  | zero => intro _; left; simp [rscanNotOf]
  | succ k ih =>
    intro hk
    have hlt : k < s.length := by omega
    have hget : s[k]? = some s[k] := List.getElem?_eq_getElem hlt
    have htake : s.take (k + 1) = s.take k ++ [s[k]] := by
      rw [List.take_succ, hget]; rfl
    rw [rscanNotOf, hget, htake]
    by_cases hb : s[k] ∈ cs
    · simp only [hb, if_true]
      rw [List.rdropWhile_concat_pos _ _ _ (by simpa using hb)]
      rcases ih (by omega) with ⟨h1, h2⟩ | ⟨j, h1, h2, h3⟩
      · left; exact ⟨h1, h2⟩
      · right; exact ⟨j, h1, by omega, h3⟩
    · simp only [hb, if_false]
      rw [List.rdropWhile_concat_neg _ _ _ (by simpa using hb)]
      right
      exact ⟨k, rfl, by omega, htake.symm⟩

/-- `rtrimInPlace` leaves the string without its trailing bytes of `cs`; when
every byte is in `cs` the index `npos + 1` handed to `erase` is 0. -/
theorem rtrimInPlace_eq (s cs : List Byte) (hsize : s.length < 2 ^ 64) :
    rtrimInPlace s cs = .ok (s.rdropWhile (fun b => decide (b ∈ cs))) := by
  unfold rtrimInPlace find_last_not_of
  rw [List.take_length]
  have hfull : s.take s.length = s := List.take_length s
  rcases rscanNotOf_spec cs s s.length (le_refl _) with ⟨h1, h2⟩ | ⟨j, h1, h2, h3⟩
  · rw [hfull] at h2
    have h0 : sizeAdd (sizeOfPos none) 1 = 0 := by decide
    simp only [h1, h0, h2, erase, Nat.zero_le, if_true, List.take_zero]
  · rw [hfull] at h3
    have hj : sizeAdd (sizeOfPos (some j)) 1 = j + 1 := by
      show (j + 1) % 2 ^ 64 = j + 1
      exact Nat.mod_eq_of_lt (by omega)
    have hle : j + 1 ≤ s.length := by omega
    simp only [h1, hj, h3, erase, hle, if_true]

theorem rdropWhile_append_of_ne_nil (p : Byte → Bool) (a : List Byte) :
    ∀ (m : List Byte), m.rdropWhile p ≠ [] →
      (a ++ m).rdropWhile p = a ++ m.rdropWhile p := by
  intro m
  induction m using List.reverseRecOn with
  | nil => intro h; simp at h
  | append_singleton m x ih =>
    intro h
    by_cases hx : p x = true
    · rw [List.rdropWhile_concat_pos _ _ _ hx] at h ⊢
      rw [← List.append_assoc, List.rdropWhile_concat_pos _ _ _ hx]
      exact ih h
    · rw [List.rdropWhile_concat_neg _ _ _ hx]
      rw [← List.append_assoc, List.rdropWhile_concat_neg _ _ _ hx]

theorem dropWhile_append_of_all (p : Byte → Bool) (m : List Byte) :
    ∀ (a : List Byte), (∀ x, x ∈ a → p x = true) →
      (a ++ m).dropWhile p = m.dropWhile p := by
  intro a
  induction a with
  | nil => intro _; rfl
  | cons x a ih =>
    intro h
    simp only [List.cons_append, List.dropWhile, h x (List.mem_cons_self _ _)]
    exact ih (fun y hy => h y (List.mem_cons_of_mem _ hy))

theorem dropWhile_eq_self_of_head (p : Byte → Bool) (m : List Byte)
    (h : ∀ b, m.head? = some b → p b = false) : m.dropWhile p = m := by
  cases m with
  | nil => rfl
  | cons b rest => simp [List.dropWhile, h b rfl]

/-- Trimming the two ends in either order gives the same bytes. -/
theorem dropWhile_rdropWhile_comm (p : Byte → Bool) (l : List Byte) :
    (l.rdropWhile p).dropWhile p = (l.dropWhile p).rdropWhile p := by
  by_cases hall : ∀ x, x ∈ l → p x = true
  · rw [List.rdropWhile_eq_nil_iff.2 hall, List.dropWhile_eq_nil_iff.2 hall]
    simp
  · have hsplit : l.takeWhile p ++ l.dropWhile p = l := List.takeWhile_append_dropWhile p l
    have hm : (l.dropWhile p).rdropWhile p ≠ [] := by
      intro h
      rw [List.rdropWhile_eq_nil_iff] at h
      apply hall
      intro x hx
      rw [← hsplit] at hx
      rcases List.mem_append.1 hx with hx | hx
      · exact List.mem_takeWhile_imp hx
      · exact h x hx
    have hpre : (l.dropWhile p).rdropWhile p <+: l.dropWhile p := List.rdropWhile_prefix p _
    have hhead : ∀ b, ((l.dropWhile p).rdropWhile p).head? = some b → p b = false := by
      intro b hb
      obtain ⟨rest, hrest⟩ := hpre
      have h1 := List.head?_dropWhile_not p l
      rw [← hrest] at h1
      cases hq : (l.dropWhile p).rdropWhile p with
      | nil => exact absurd hq hm
      | cons c tl =>
        rw [hq] at hb h1
        simp only [List.head?_cons, Option.some.injEq] at hb
        subst hb
        simpa using h1
    calc (l.rdropWhile p).dropWhile p
        = ((l.takeWhile p ++ l.dropWhile p).rdropWhile p).dropWhile p := by rw [hsplit]
      _ = (l.takeWhile p ++ (l.dropWhile p).rdropWhile p).dropWhile p := by
          rw [rdropWhile_append_of_ne_nil p _ _ hm]
      _ = ((l.dropWhile p).rdropWhile p).dropWhile p :=
          dropWhile_append_of_all p _ _ (fun x hx => List.mem_takeWhile_imp hx)
      _ = (l.dropWhile p).rdropWhile p := dropWhile_eq_self_of_head p _ hhead

theorem length_dropWhile_le (p : Byte → Bool) (l : List Byte) :
    (l.dropWhile p).length ≤ l.length := by
  have h := congrArg List.length (List.takeWhile_append_dropWhile p l)
  simp only [List.length_append] at h
  omega

theorem trim_eq (s cs : List Byte) (hsize : s.length < 2 ^ 64) :
    trim s cs =
      .ok ((s.rdropWhile (fun b => decide (b ∈ cs))).dropWhile (fun b => decide (b ∈ cs))) := by
  simp [trim, trimInPlace, rtrimInPlace_eq s cs hsize, ltrimInPlace_eq]

/-- C14: `trim(s, cs)` is `ltrim(rtrim(s, cs), cs)` and is `rtrim(ltrim(s, cs), cs)`,
for every character set `cs`; the one-argument forms are these with the
whitespace set.  (`hsize`: the size of a `std::string` is a `size_t` value.) -/
theorem trim_order_independent (s cs : List Byte) (hsize : s.length < 2 ^ 64) :
    (∃ a b t, rtrim s cs = .ok a ∧ ltrim s cs = .ok b ∧ trim s cs = .ok t ∧
      ltrim a cs = .ok t ∧ rtrim b cs = .ok t) ∧
    trimWhitespace s = trim s Whitespace ∧ ltrimWhitespace s = ltrim s Whitespace ∧
    rtrimWhitespace s = rtrim s Whitespace := by
  refine ⟨⟨_, _, _, rtrimInPlace_eq s cs hsize, ltrimInPlace_eq s cs, trim_eq s cs hsize,
    ltrimInPlace_eq _ cs, ?_⟩, rfl, rfl, rfl⟩
  have hlen := length_dropWhile_le (fun b => decide (b ∈ cs)) s
  have h := rtrimInPlace_eq (s.dropWhile (fun b => decide (b ∈ cs))) cs (by omega)
  unfold rtrim
  rw [h, dropWhile_rdropWhile_comm]

/-- C14 at `trim(" a b\n")` with the whitespace set, which is `"a b"` both ways. -/
theorem trim_order_independent_witness :
    ∃ a b, rtrim [32, 97, 32, 98, 10] Whitespace = .ok a ∧
      ltrim [32, 97, 32, 98, 10] Whitespace = .ok b ∧
      trim [32, 97, 32, 98, 10] Whitespace = .ok [97, 32, 98] ∧
      ltrim a Whitespace = .ok [97, 32, 98] ∧ rtrim b Whitespace = .ok [97, 32, 98] := by
  obtain ⟨a, b, t, h1, h2, h3, h4, h5⟩ :=
    (trim_order_independent [32, 97, 32, 98, 10] Whitespace (by decide)).1
  have ht : t = [97, 32, 98] := by
    have h : trim [32, 97, 32, 98, 10] Whitespace = .ok [97, 32, 98] := by decide
    rw [h3] at h
    exact Outcome.ok.inj h
  subst ht
  exact ⟨a, b, h1, h2, h3, h4, h5⟩


theorem head_dropWhile_not_mem (cs l : List Byte) :
    ∀ b, (l.dropWhile (fun b => decide (b ∈ cs))).head? = some b → b ∉ cs := by
  intro b hb
  have h := List.head?_dropWhile_not (fun b => decide (b ∈ cs)) l
  rw [hb] at h
  simpa using h

theorem getLast_rdropWhile_not_mem (cs l : List Byte) :
    ∀ b, (l.rdropWhile (fun b => decide (b ∈ cs))).getLast? = some b → b ∉ cs := by
  intro b hb
  by_cases hne : l.rdropWhile (fun b => decide (b ∈ cs)) = []
  · rw [hne] at hb; cases hb
  · have h := List.rdropWhile_last_not (fun b => decide (b ∈ cs)) l hne
    rw [List.getLast?_eq_getLast _ hne] at hb
    have hb' := Option.some.inj hb
    rw [hb'] at h
    simpa using h

theorem rdropWhile_append_trailing (p : Byte → Bool) :
    ∀ (l : List Byte), ∃ suf, l = l.rdropWhile p ++ suf ∧ ∀ x, x ∈ suf → p x = true := by
  intro l
  induction l using List.reverseRecOn with
  | nil => exact ⟨[], by simp, by simp⟩
  | append_singleton l x ih =>
    by_cases hx : p x = true
    · obtain ⟨suf, h1, h2⟩ := ih
      refine ⟨suf ++ [x], ?_, ?_⟩
      · rw [List.rdropWhile_concat_pos _ _ _ hx, ← List.append_assoc, ← h1]
      · intro y hy
        rcases List.mem_append.1 hy with hy | hy
        · exact h2 y hy
        · rw [List.mem_singleton.1 hy]; exact hx
    · exact ⟨[], by rw [List.rdropWhile_concat_neg _ _ _ hx]; simp, by simp⟩

/-- C15: `ltrim(s, cs)` is `s` without its longest prefix of bytes of `cs` (what
is left does not begin with a byte of `cs`), `rtrim(s, cs)` is `s` without its
longest suffix of bytes of `cs` (what is left does not end with a byte of `cs`),
`trim(s, cs)` removes both; when every byte of `s` is in `cs`, all three return
the empty string.  (`hsize`: the size of a `std::string` is a `size_t` value.) -/
theorem trim_removes_runs (s cs : List Byte) (hsize : s.length < 2 ^ 64) :
    (∃ pre rest, s = pre ++ rest ∧ (∀ b, b ∈ pre → b ∈ cs) ∧
      (∀ b, rest.head? = some b → b ∉ cs) ∧ ltrim s cs = .ok rest) ∧
    (∃ rest suf, s = rest ++ suf ∧ (∀ b, b ∈ suf → b ∈ cs) ∧
      (∀ b, rest.getLast? = some b → b ∉ cs) ∧ rtrim s cs = .ok rest) ∧
    (∃ pre mid suf, s = pre ++ mid ++ suf ∧ (∀ b, b ∈ pre → b ∈ cs) ∧
      (∀ b, b ∈ suf → b ∈ cs) ∧ (∀ b, mid.head? = some b → b ∉ cs) ∧
      (∀ b, mid.getLast? = some b → b ∉ cs) ∧ trim s cs = .ok mid) ∧
    ((∀ b, b ∈ s → b ∈ cs) →
      ltrim s cs = .ok [] ∧ rtrim s cs = .ok [] ∧ trim s cs = .ok []) := by
  refine ⟨?_, ?_, ?_, ?_⟩
  · refine ⟨s.takeWhile (fun b => decide (b ∈ cs)), s.dropWhile (fun b => decide (b ∈ cs)),
      (List.takeWhile_append_dropWhile _ s).symm, ?_, head_dropWhile_not_mem cs s,
      ltrimInPlace_eq s cs⟩
    intro b hb
    simpa using List.mem_takeWhile_imp hb
  · obtain ⟨suf, h1, h2⟩ := rdropWhile_append_trailing (fun b => decide (b ∈ cs)) s
    exact ⟨_, suf, h1, fun b hb => by simpa using h2 b hb, getLast_rdropWhile_not_mem cs s,
      rtrimInPlace_eq s cs hsize⟩
  · obtain ⟨suf, h1, h2⟩ := rdropWhile_append_trailing (fun b => decide (b ∈ cs)) s
    refine ⟨(s.rdropWhile (fun b => decide (b ∈ cs))).takeWhile (fun b => decide (b ∈ cs)),
      (s.rdropWhile (fun b => decide (b ∈ cs))).dropWhile (fun b => decide (b ∈ cs)), suf,
      ?_, ?_, fun b hb => by simpa using h2 b hb, head_dropWhile_not_mem cs _, ?_,
      trim_eq s cs hsize⟩
    · rw [List.takeWhile_append_dropWhile]; exact h1
    · intro b hb
      simpa using List.mem_takeWhile_imp hb
    · rw [dropWhile_rdropWhile_comm]
      exact getLast_rdropWhile_not_mem cs _
  · intro hall
    have hp : ∀ x, x ∈ s → (fun b => decide (b ∈ cs)) x = true := by
      intro x hx; simpa using hall x hx
    have hl : s.dropWhile (fun b => decide (b ∈ cs)) = [] := List.dropWhile_eq_nil_iff.2 hp
    have hr : s.rdropWhile (fun b => decide (b ∈ cs)) = [] := List.rdropWhile_eq_nil_iff.2 hp
    refine ⟨?_, ?_, ?_⟩
    · rw [← hl]; exact ltrimInPlace_eq s cs
    · rw [← hr]; exact rtrimInPlace_eq s cs hsize
    · rw [trim_eq s cs hsize, hr]; rfl

/-- C15 at `"  a b "` and at `"  "`, with the character set `" "`. -/
theorem trim_removes_runs_witness :
    ltrim [32, 32, 97, 32, 98, 32] [32] = .ok [97, 32, 98, 32] ∧
    rtrim [32, 32, 97, 32, 98, 32] [32] = .ok [32, 32, 97, 32, 98] ∧
    trim [32, 32, 97, 32, 98, 32] [32] = .ok [97, 32, 98] ∧
    ltrim [32, 32] [32] = .ok [] ∧ rtrim [32, 32] [32] = .ok [] ∧
    trim [32, 32] [32] = .ok [] := by
  have h := (trim_removes_runs [32, 32] [32] (by decide)).2.2.2
    (fun b hb => by simp only [List.mem_cons, List.mem_nil_iff, or_false, or_self] at hb ⊢; exact hb)
  exact ⟨by decide, by decide, by decide, h.1, h.2.1, h.2.2⟩


/-! ## Split, continued -/

/-- Dropping the empty parts while scanning is filtering them out afterwards. -/
theorem scanFields_filter (isDelimiter : Byte → Bool) :
    ∀ (t : List Byte) (start pos : Nat), start ≤ pos →
      scanFields isDelimiter false t start pos =
        (((scanFields isDelimiter true t start pos).1).filter (fun v => decide (v.size ≠ 0)),
          (scanFields isDelimiter true t start pos).2) := by
  intro t
  induction t with
  | nil => intro start pos _; rfl
  | cons b rest ih =>
    intro start pos hsp
    by_cases hb : isDelimiter b = true
    · rw [scanFields_cons_true _ _ _ _ _ _ hb, scanFields_cons_true _ _ _ _ _ _ hb,
        ih (pos + 1) (pos + 1) (le_refl _)]
      by_cases h0 : pos = start
      · subst h0
        simp [List.filter]
      · have h1 : pos - start ≠ 0 := by omega
        simp [List.filter, h0, h1]
    · have hb' : isDelimiter b = false := by simpa using hb
      rw [scanFields_cons_false _ _ _ _ _ _ hb', scanFields_cons_false _ _ _ _ _ _ hb']
      exact ih start (pos + 1) (by omega)

/-- The parts closed by a delimiter come in increasing order, a delimiter between
each two, and before the offset at which the last part begins. -/
theorem scanFields_pairwise (isDelimiter : Byte → Bool) (keepEmpty : Bool) :
    ∀ (t : List Byte) (start pos : Nat), start ≤ pos →
      ((scanFields isDelimiter keepEmpty t start pos).1).Pairwise
          (fun v w => v.data + v.size < w.data) ∧
        ∀ v, v ∈ (scanFields isDelimiter keepEmpty t start pos).1 →
          v.data + v.size < (scanFields isDelimiter keepEmpty t start pos).2 := by
  intro t
  induction t with
  | nil => intro start pos _; simp [scanFields]
  | cons b rest ih =>
    intro start pos hsp
    by_cases hb : isDelimiter b = true
    · rw [scanFields_cons_true _ _ _ _ _ _ hb]
      obtain ⟨h1, h2⟩ := ih (pos + 1) (pos + 1) (le_refl _)
      obtain ⟨g1, _, g3⟩ := scanFields_bounds isDelimiter keepEmpty rest (pos + 1) (pos + 1)
        (le_refl _)
      by_cases hk : (keepEmpty || decide (pos ≠ start)) = true
      · simp only [hk, if_true]
        refine ⟨List.pairwise_cons.2 ⟨?_, h1⟩, ?_⟩
        · intro w hw
          have := (g3 w hw).1
          simp only
          omega
        · intro v hv
          rcases List.mem_cons.1 hv with rfl | hv'
          · simp only; omega
          · exact h2 v hv'
      · simp only [hk, Bool.false_eq_true, if_false]
        exact ⟨h1, h2⟩
    · have hb' : isDelimiter b = false := by simpa using hb
      rw [scanFields_cons_false _ _ _ _ _ _ hb']
      exact ih start (pos + 1) (by omega)

theorem length_delimiterPositions (c : Byte) :
    ∀ (t : List Byte) (k : Nat), (delimiterPositions c t k).length = t.count c := by
  intro t
  induction t with
  | nil => intro k; rfl
  | cons b rest ih =>
    intro k
    by_cases hb : b = c
    · simp [delimiterPositions, hb, ih, List.count_cons]
    · simp [delimiterPositions, hb, ih, List.count_cons]

theorem mem_delimiterPositions (c : Byte) :
    ∀ (t : List Byte) (k i : Nat),
      i ∈ delimiterPositions c t k ↔ k ≤ i ∧ t[i - k]? = some c := by
  intro t
  induction t with
  | nil => intro k i; simp [delimiterPositions]
  | cons b rest ih =>
    intro k i
    have hstep : ∀ j, k + 1 ≤ j → (b :: rest)[j - k]? = rest[j - (k + 1)]? := by
      intro j hj
      obtain ⟨m, hm⟩ : ∃ m, j - k = m + 1 := ⟨j - k - 1, by omega⟩
      have hm2 : j - (k + 1) = m := by omega
      rw [hm, hm2, List.getElem?_cons_succ]
    by_cases hb : b = c
    · simp only [delimiterPositions, hb, if_true, List.mem_cons, ih]
      constructor
      · rintro (h | ⟨h1, h2⟩)
        · subst h; simp
        · exact ⟨by omega, by rw [← hb] at h2 ⊢; rw [hstep i h1]; exact h2⟩
      · rintro ⟨h1, h2⟩
        rcases Nat.eq_or_lt_of_le h1 with h | h
        · left; exact h.symm
        · right
          refine ⟨h, ?_⟩
          rw [← hb] at h2 ⊢
          rw [hstep i h] at h2
          exact h2
    · simp only [delimiterPositions, hb, if_false, ih]
      constructor
      · rintro ⟨h1, h2⟩
        exact ⟨by omega, by rw [hstep i h1]; exact h2⟩
      · rintro ⟨h1, h2⟩
        rcases Nat.eq_or_lt_of_le h1 with h | h
        · subst h
          simp only [Nat.sub_self, List.getElem?_cons_zero, Option.some.injEq] at h2
          exact absurd h2 hb
        · exact ⟨h, by rw [hstep i h] at h2; exact h2⟩

theorem pairwise_delimiterPositions (c : Byte) :
    ∀ (t : List Byte) (k : Nat), (delimiterPositions c t k).Pairwise (· < ·) := by
  intro t
  induction t with
  | nil => intro k; simp [delimiterPositions]
  | cons b rest ih =>
    intro k
    by_cases hb : b = c
    · simp only [delimiterPositions, hb, if_true]
      refine List.pairwise_cons.2 ⟨?_, ih (k + 1)⟩
      intro j hj
      have := ((mem_delimiterPositions c rest (k + 1) j).1 hj).1
      omega
    · simp only [delimiterPositions, hb, if_false]
      exact ih (k + 1)

/-- The parts of the retaining split are the spans between consecutive
delimiter offsets. -/
theorem scanFields_spans (c : Byte) (n : Nat) :
    ∀ (t : List Byte) (start pos : Nat),
      (scanFields (fun b => b == c) true t start pos).1 ++
          [span (scanFields (fun b => b == c) true t start pos).2 n] =
        List.zipWith span (start :: (delimiterPositions c t pos).map (· + 1))
          (delimiterPositions c t pos ++ [n]) := by
  intro t
  induction t with
  | nil => intro start pos; simp [scanFields, delimiterPositions]
  | cons b rest ih =>
    intro start pos
    by_cases hb : b = c
    · have hb' : (fun b => b == c) b = true := by simpa using hb
      rw [scanFields_cons_true (fun b => b == c) true b rest start pos hb']
      simp only [Bool.true_or, if_true, delimiterPositions, hb, List.map_cons, List.cons_append,
        List.zipWith_cons_cons]
      rw [ih (pos + 1) (pos + 1)]
      rfl
    · have hb' : (fun b => b == c) b = false := by simpa using hb
      rw [scanFields_cons_false (fun b => b == c) true b rest start pos hb']
      simp only [delimiterPositions, hb, if_false]
      exact ih start (pos + 1)


theorem getElem?_of_drop_eq_cons (s rest : List Byte) (b : Byte) (pos : Nat)
    (h : s.drop pos = b :: rest) : s[pos]? = some b := by
  have h0 : (s.drop pos)[0]? = some b := by rw [h]; simp
  rw [List.getElem?_drop] at h0
  simpa using h0

theorem take_succ_of_drop_eq_cons (s rest : List Byte) (b : Byte) (start pos : Nat)
    (h : s.drop pos = b :: rest) (hsp : start ≤ pos) :
    (s.drop start).take (pos + 1 - start) = (s.drop start).take (pos - start) ++ [b] := by
  have h1 : pos + 1 - start = (pos - start) + 1 := by omega
  have h2 : (s.drop start)[pos - start]? = some b := by
    rw [List.getElem?_drop, Nat.add_sub_cancel' hsp]
    exact getElem?_of_drop_eq_cons s rest b pos h
  rw [h1, List.take_succ, h2]
  rfl

theorem take_eq_drop_of_drop_eq_nil (s : List Byte) (start pos : Nat)
    (h : s.drop pos = []) (hsp : start ≤ pos) :
    (s.drop start).take (pos - start) = s.drop start := by
  apply List.take_of_length_le
  have := List.drop_eq_nil_iff.1 h
  simp only [List.length_drop]
  omega

theorem drop_eq_take_append (s rest : List Byte) (b : Byte) (start pos : Nat)
    (h : s.drop pos = b :: rest) (hsp : start ≤ pos) :
    s.drop start = (s.drop start).take (pos - start) ++ b :: rest := by
  have hsplit : s.drop start =
      (s.drop start).take (pos - start) ++ (s.drop start).drop (pos - start) :=
    (List.take_append_drop _ _).symm
  rw [List.drop_drop, Nat.add_sub_cancel' hsp, h] at hsplit
  exact hsplit

/-- No part holds a delimiter, and none follows the offset at which the last
part begins, when none lies in the part under way. -/
theorem scanFields_inside (isDelimiter : Byte → Bool) (keepEmpty : Bool) (s : List Byte) :
    ∀ (t : List Byte) (start pos : Nat), s.drop pos = t → start ≤ pos →
      (∀ b, b ∈ (s.drop start).take (pos - start) → isDelimiter b = false) →
      (∀ v, v ∈ (scanFields isDelimiter keepEmpty t start pos).1 →
        ∀ b, b ∈ StringView.bytes s v → isDelimiter b = false) ∧
      (∀ b, b ∈ s.drop (scanFields isDelimiter keepEmpty t start pos).2 →
        isDelimiter b = false) := by
  intro t
  induction t with
  | nil =>
    intro start pos hdrop hsp hcur
    rw [take_eq_drop_of_drop_eq_nil s start pos hdrop hsp] at hcur
    simp only [scanFields, List.not_mem_nil, false_implies, implies_true, true_and]
    exact hcur
  | cons b rest ih =>
    intro start pos hdrop hsp hcur
    have hrest := drop_succ_of_drop_eq_cons s rest b pos hdrop
    by_cases hb : isDelimiter b = true
    · rw [scanFields_cons_true _ _ _ _ _ _ hb]
      obtain ⟨h1, h2⟩ := ih (pos + 1) (pos + 1) hrest (le_refl _) (by simp)
      refine ⟨?_, h2⟩
      intro v hv
      by_cases hk : (keepEmpty || decide (pos ≠ start)) = true
      · simp only [hk, if_true] at hv
        rcases List.mem_cons.1 hv with rfl | hv'
        · exact hcur
        · exact h1 v hv'
      · simp only [hk, Bool.false_eq_true, if_false] at hv
        exact h1 v hv
    · have hb' : isDelimiter b = false := by simpa using hb
      rw [scanFields_cons_false _ _ _ _ _ _ hb']
      apply ih start (pos + 1) hrest (by omega)
      intro x hx
      rw [take_succ_of_drop_eq_cons s rest b start pos hdrop hsp] at hx
      rcases List.mem_append.1 hx with hx | hx
      · exact hcur x hx
      · rw [List.mem_singleton.1 hx]; exact hb'

/-- The parts and the rest of the string after the last delimiter are, put
together, the string without its delimiters. -/
theorem scanFields_flatten (isDelimiter : Byte → Bool) (keepEmpty : Bool) (s : List Byte) :
    ∀ (t : List Byte) (start pos : Nat), s.drop pos = t → start ≤ pos →
      (∀ b, b ∈ (s.drop start).take (pos - start) → isDelimiter b = false) →
      (toStrings s (scanFields isDelimiter keepEmpty t start pos).1).flatten ++
          s.drop (scanFields isDelimiter keepEmpty t start pos).2 =
        (s.drop start).filter (fun b => !isDelimiter b) := by
  intro t
  induction t with
  | nil =>
    intro start pos hdrop hsp hcur
    rw [take_eq_drop_of_drop_eq_nil s start pos hdrop hsp] at hcur
    simp only [scanFields, toStrings, List.map_nil, List.flatten_nil, List.nil_append]
    exact (List.filter_eq_self.2 (fun a ha => by simp [hcur a ha])).symm
  | cons b rest ih =>
    intro start pos hdrop hsp hcur
    have hrest := drop_succ_of_drop_eq_cons s rest b pos hdrop
    by_cases hb : isDelimiter b = true
    · rw [scanFields_cons_true _ _ _ _ _ _ hb]
      have h := ih (pos + 1) (pos + 1) hrest (le_refl _) (by simp)
      rw [hrest] at h
      have hsplit := drop_eq_take_append s rest b start pos hdrop hsp
      have hfilter : (s.drop start).filter (fun b => !isDelimiter b) =
          (s.drop start).take (pos - start) ++ rest.filter (fun b => !isDelimiter b) := by
        conv_lhs => rw [hsplit]
        rw [List.filter_append, List.filter_cons]
        simp only [hb, Bool.not_true, Bool.false_eq_true, if_false]
        rw [List.filter_eq_self.2 (fun a ha => by simp [hcur a ha])]
      rw [hfilter, ← h]
      by_cases hk : (keepEmpty || decide (pos ≠ start)) = true
      · simp only [hk, if_true, toStrings, List.map_cons, List.flatten_cons, StringView.bytes,
          List.append_assoc]
      · simp only [hk, Bool.false_eq_true, if_false]
        have hps : pos = start := by
          simp only [Bool.or_eq_true, decide_eq_true_eq, not_or, ne_eq, not_not] at hk
          exact hk.2
        simp [hps]
    · have hb' : isDelimiter b = false := by simpa using hb
      rw [scanFields_cons_false _ _ _ _ _ _ hb']
      apply ih start (pos + 1) hrest (by omega)
      intro x hx
      rw [take_succ_of_drop_eq_cons s rest b start pos hdrop hsp] at hx
      rcases List.mem_append.1 hx with hx | hx
      · exact hcur x hx
      · rw [List.mem_singleton.1 hx]; exact hb'

/-- Each part closed by a delimiter begins where the scan began or right after
a delimiter, and a delimiter follows it; the last part begins likewise. -/
theorem scanFields_boundaries (isDelimiter : Byte → Bool) (keepEmpty : Bool)
    (s : List Byte) :
    ∀ (t : List Byte) (start pos : Nat), s.drop pos = t → start ≤ pos →
      (∀ v, v ∈ (scanFields isDelimiter keepEmpty t start pos).1 →
        (v.data = start ∨
          (1 ≤ v.data ∧ ∃ b, s[v.data - 1]? = some b ∧ isDelimiter b = true)) ∧
        ∃ b, s[v.data + v.size]? = some b ∧ isDelimiter b = true) ∧
      ((scanFields isDelimiter keepEmpty t start pos).2 = start ∨
        (1 ≤ (scanFields isDelimiter keepEmpty t start pos).2 ∧
          ∃ b, s[(scanFields isDelimiter keepEmpty t start pos).2 - 1]? = some b ∧
            isDelimiter b = true)) := by
  intro t
  induction t with
  | nil => intro start pos _ _; simp [scanFields]
  | cons b rest ih =>
    intro start pos hdrop hsp
    have hrest := drop_succ_of_drop_eq_cons s rest b pos hdrop
    have hget := getElem?_of_drop_eq_cons s rest b pos hdrop
    by_cases hb : isDelimiter b = true
    · rw [scanFields_cons_true _ _ _ _ _ _ hb]
      obtain ⟨h1, h2⟩ := ih (pos + 1) (pos + 1) hrest (le_refl _)
      have hafter : ∀ k, k = pos + 1 →
          1 ≤ k ∧ ∃ b, s[k - 1]? = some b ∧ isDelimiter b = true := by
        intro k hk
        subst hk
        exact ⟨by omega, b, by simpa using hget, hb⟩
      have htail : ∀ v, v ∈ (scanFields isDelimiter keepEmpty rest (pos + 1) (pos + 1)).1 →
          (v.data = start ∨
            (1 ≤ v.data ∧ ∃ b, s[v.data - 1]? = some b ∧ isDelimiter b = true)) ∧
          ∃ b, s[v.data + v.size]? = some b ∧ isDelimiter b = true := by
        intro v hv
        obtain ⟨g1, g2⟩ := h1 v hv
        refine ⟨?_, g2⟩
        rcases g1 with g | g
        · right; exact hafter _ g
        · right; exact g
      refine ⟨?_, ?_⟩
      · intro v hv
        by_cases hk : (keepEmpty || decide (pos ≠ start)) = true
        · simp only [hk, if_true] at hv
          rcases List.mem_cons.1 hv with rfl | hv'
          · refine ⟨Or.inl rfl, b, ?_, hb⟩
            simp only
            rw [Nat.add_sub_cancel' hsp]
            exact hget
          · exact htail v hv'
        · simp only [hk, Bool.false_eq_true, if_false] at hv
          exact htail v hv
      · rcases h2 with g | g
        · right; exact hafter _ g
        · right; exact g
    · have hb' : isDelimiter b = false := by simpa using hb
      rw [scanFields_cons_false _ _ _ _ _ _ hb']
      exact ih start (pos + 1) hrest (by omega)


theorem bytes_last_part (s : List Byte) (k : Nat) :
    StringView.bytes s ⟨k, s.length - k⟩ = s.drop k := by
  unfold StringView.bytes
  apply List.take_of_length_le
  simp

/-- The views of `split` lie inside the string. -/
theorem split_parts_bounds (s : List Byte) (c : Byte) :
    ∀ v, v ∈ (scanFields (fun b => b == c) true s 0 0).1 ++
        (if s.isEmpty then []
          else [StringView.mk (scanFields (fun b => b == c) true s 0 0).2
            (s.length - (scanFields (fun b => b == c) true s 0 0).2)]) →
      v.data + v.size ≤ s.length := by
  obtain ⟨_, h2, h3⟩ := scanFields_bounds (fun b => b == c) true s 0 0 (le_refl _)
  intro v hv
  rcases List.mem_append.1 hv with hv | hv
  · have := (h3 v hv).2.1
    omega
  · split at hv
    · cases hv
    · rw [List.mem_singleton] at hv
      subst hv
      simp only
      omega

/-- C11: `split` of the empty string has no part; for a non-empty `s` the parts
of `split(s, c)` are, in order, the spans between consecutive offsets of `c` in
`s` (from 0 to the first, from after each to the next, from after the last to
`|s|`), so there are as many as occurrences of `c` plus one, none holds `c`, the
first is empty when `s` begins with `c` and the last is empty when `s` ends
with `c`. -/
theorem split_spans (s : List Byte) (c : Byte) :
    split [] c = .ok [] ∧ splitStl [] c = .ok [] ∧
    (s ≠ [] → ∃ parts, split s c = .ok parts ∧ splitStl s c = .ok (toStrings s parts) ∧
      parts = List.zipWith span (0 :: (delimiterPositions c s 0).map (· + 1))
        (delimiterPositions c s 0 ++ [s.length]) ∧
      parts.length = s.count c + 1 ∧
      (∀ x, x ∈ toStrings s parts → c ∉ x) ∧
      (s.head? = some c → (toStrings s parts).head? = some []) ∧
      (s.getLast? = some c → (toStrings s parts).getLast? = some [])) ∧
    (∀ i, i ∈ delimiterPositions c s 0 ↔ s[i]? = some c) ∧
    (delimiterPositions c s 0).Pairwise (· < ·) := by
  have hnil : split [] c = .ok [] := (split_eq [] c).trans (by simp [scanFields])
  refine ⟨hnil, by simp [splitStl, hnil, toStrings], ?_, ?_, pairwise_delimiterPositions c s 0⟩
  · intro hne
    have hempty : s.isEmpty = false := by
      cases s with
      | nil => exact absurd rfl hne
      | cons a l => rfl
    have hsplit := split_eq s c
    simp only [hempty, Bool.false_eq_true, if_false] at hsplit
    have hspans : (scanFields (fun b => b == c) true s 0 0).1 ++
        [StringView.mk (scanFields (fun b => b == c) true s 0 0).2
          (s.length - (scanFields (fun b => b == c) true s 0 0).2)] =
        List.zipWith span (0 :: (delimiterPositions c s 0).map (· + 1))
          (delimiterPositions c s 0 ++ [s.length]) := scanFields_spans c s.length s 0 0
    have hinside := scanFields_inside (fun b => b == c) true s s 0 0 rfl (le_refl _) (by simp)
    refine ⟨_, hsplit, ?_, hspans, ?_, ?_, ?_, ?_⟩
    · simp [splitStl, hsplit]
    · rw [hspans]
      simp [length_delimiterPositions]
    · intro x hx hc
      obtain ⟨v, hv, rfl⟩ := List.mem_map.1 hx
      have hfalse : ((fun b => b == c) c) = false := by
        rcases List.mem_append.1 hv with hv | hv
        · exact hinside.1 v hv c hc
        · rw [List.mem_singleton] at hv
          subst hv
          rw [bytes_last_part] at hc
          exact hinside.2 c hc
      simp at hfalse
    · intro hhead
      rw [hspans]
      cases s with
      | nil => exact absurd rfl hne
      | cons a l =>
        simp only [List.head?_cons, Option.some.injEq] at hhead
        subst hhead
        simp [delimiterPositions, toStrings, span, StringView.bytes]
    · intro hlast
      simp only [toStrings, List.map_append, List.map_cons, List.map_nil,
        List.getLast?_concat, Option.some.injEq]
      rw [bytes_last_part]
      by_contra hnil
      have hlt : ¬ s.length ≤ (scanFields (fun b => b == c) true s 0 0).2 := by
        intro hle
        exact hnil (List.drop_eq_nil_iff.2 hle)
      have hl : (s.drop (scanFields (fun b => b == c) true s 0 0).2).getLast? = some c := by
        rw [List.getLast?_drop]
        simp only [hlt, if_false]
        exact hlast
      have hfalse := hinside.2 c (List.mem_of_getLast?_eq_some hl)
      simp at hfalse
  · intro i
    rw [mem_delimiterPositions]
    simp

/-- C11 at `split(",a,", ',')`: three parts, the spans `[0,0)`, `[1,2)`, `[3,3)`. -/
theorem split_spans_witness :
    split [44, 97, 44] 44 = .ok [⟨0, 0⟩, ⟨1, 1⟩, ⟨3, 0⟩] ∧
    splitStl [44, 97, 44] 44 = .ok [[], [97], []] := by
  obtain ⟨parts, h1, h2, h3, _⟩ := (split_spans [44, 97, 44] 44).2.2.1 (by decide)
  have hp : parts = [⟨0, 0⟩, ⟨1, 1⟩, ⟨3, 0⟩] := h3.trans (by decide)
  subst hp
  exact ⟨h1, h2.trans (by decide)⟩

theorem filter_last_part (e : Bool) (f n : Nat) (he : e = true → n = 0) (hf : f ≤ n) :
    (if e then [] else [StringView.mk f (n - f)]).filter (fun v => decide (v.size ≠ 0)) =
      if f < n then [StringView.mk f (n - f)] else [] := by
  cases e with
  | true =>
    have hn : n = 0 := he rfl
    have : ¬ f < n := by omega
    simp [this]
  | false =>
    by_cases hlt : f < n
    · have hne : n - f ≠ 0 := by omega
      simp [hlt, List.filter, hne]
    · have heq : n - f = 0 := by omega
      simp [hlt, List.filter, heq]

/-- C12: `splitWithoutEmptyParts(s, c)` is `split(s, c)` without its zero-length
parts, in the same order, as views and as strings. -/
theorem splitWithoutEmptyParts_eq_filter (s : List Byte) (c : Byte) :
    ∃ parts, split s c = .ok parts ∧
      splitWithoutEmptyParts s c = .ok (parts.filter (fun v => decide (v.size ≠ 0))) ∧
      splitStl s c = .ok (toStrings s parts) ∧
      splitWithoutEmptyPartsStl s c =
        .ok ((toStrings s parts).filter (fun x => !x.isEmpty)) := by
  have hviews : splitWithoutEmptyParts s c =
      .ok (((scanFields (fun b => b == c) true s 0 0).1 ++
        (if s.isEmpty then []
          else [StringView.mk (scanFields (fun b => b == c) true s 0 0).2
            (s.length - (scanFields (fun b => b == c) true s 0 0).2)])).filter
        (fun v => decide (v.size ≠ 0))) := by
    rw [splitWithoutEmptyParts_eq, scanFields_filter _ s 0 0 (le_refl _), List.filter_append]
    obtain ⟨_, h2, _⟩ := scanFields_bounds (fun b => b == c) true s 0 0 (le_refl _)
    simp only [Nat.zero_add] at h2
    rw [filter_last_part s.isEmpty _ s.length (by
      intro he
      cases s with
      | nil => rfl
      | cons a l => cases he) h2]
  refine ⟨_, split_eq s c, hviews, by simp [splitStl, split_eq], ?_⟩
  simp only [splitWithoutEmptyPartsStl, hviews, Outcome.ok_bind, Outcome.pure_eq, toStrings]
  congr 1
  rw [List.filter_map]
  congr 1
  apply List.filter_congr
  intro v hv
  have hb := split_parts_bounds s c v hv
  simp only [Function.comp, StringView.bytes]
  by_cases h0 : v.size = 0
  · simp [h0]
  · have hlen : ((s.drop v.data).take v.size).length ≠ 0 := by
      simp only [List.length_take, List.length_drop]
      omega
    have hne : (s.drop v.data).take v.size ≠ [] := fun h => hlen (by rw [h]; rfl)
    simp [h0, hne]


/-- The parts a split returns, those closed by a delimiter and then at most the
last one, lie inside the string, in increasing order, a delimiter between each
two. -/
theorem parts_within_ordered (isDelimiter : Byte → Bool) (keepEmpty : Bool) (s : List Byte)
    (e : List StringView)
    (he : e = [] ∨ e = [StringView.mk (scanFields isDelimiter keepEmpty s 0 0).2
      (s.length - (scanFields isDelimiter keepEmpty s 0 0).2)]) :
    (∀ v, v ∈ (scanFields isDelimiter keepEmpty s 0 0).1 ++ e →
      v.data + v.size ≤ s.length ∧ slice s v.data (v.data + v.size) = .ok v) ∧
    ((scanFields isDelimiter keepEmpty s 0 0).1 ++ e).Pairwise
      (fun v w => v.data + v.size < w.data) := by
  obtain ⟨_, h2, h3⟩ := scanFields_bounds isDelimiter keepEmpty s 0 0 (le_refl _)
  obtain ⟨g1, g2⟩ := scanFields_pairwise isDelimiter keepEmpty s 0 0 (le_refl _)
  simp only [Nat.zero_add] at h2 h3
  have hslice : ∀ v : StringView, v.data + v.size ≤ s.length →
      slice s v.data (v.data + v.size) = .ok v := by
    intro v hv
    unfold slice
    have h1 : v.data ≤ v.data + v.size ∧ v.data + v.size ≤ s.length := ⟨by omega, hv⟩
    simp only [h1, and_self, if_true, Nat.add_sub_cancel_left]
  constructor
  · intro v hv
    have hb : v.data + v.size ≤ s.length := by
      rcases List.mem_append.1 hv with hv | hv
      · have := (h3 v hv).2.1
        omega
      · rcases he with he | he
        · rw [he] at hv; cases hv
        · rw [he, List.mem_singleton] at hv
          subst hv
          simp only
          omega
    exact ⟨hb, hslice v hb⟩
  · rw [List.pairwise_append]
    refine ⟨g1, ?_, ?_⟩
    · rcases he with he | he
      · rw [he]; exact List.Pairwise.nil
      · rw [he]; exact List.pairwise_singleton _ _
    · intro v hv w hw
      rcases he with he | he
      · rw [he] at hw; cases hw
      · rw [he, List.mem_singleton] at hw
        subst hw
        exact g2 v hv

theorem ite_nil_or (p : Prop) [Decidable p] (v : StringView) :
    (if p then [v] else []) = [] ∨ (if p then [v] else []) = [v] := by
  by_cases h : p
  · right; simp [h]
  · left; simp [h]

theorem ite_nil_or' (e : Bool) (v : StringView) :
    (if e then [] else [v]) = [] ∨ (if e then [] else [v]) = [v] := by
  cases e
  · right; rfl
  · left; rfl

/-- C13: `splitWithoutEmptyParts(s, D)` returns, in order, the maximal non-empty
runs of bytes of `s` outside `D`: each part is not empty, holds no byte of `D`,
begins at the start of `s` or right after a byte of `D`, and ends at the end of
`s` or right before a byte of `D`; the parts put together are `s` without its
bytes of `D`.  When no byte of a non-empty `s` is in `D` the only part is `s`,
and when `s` does not end with a byte of `D` the last part reaches its end. -/
theorem splitWithoutEmptyPartsSet_runs (s D : List Byte) :
    ∃ parts, splitWithoutEmptyPartsSet s D = .ok parts ∧
      splitWithoutEmptyPartsSetStl s D = .ok (toStrings s parts) ∧
      (∀ v, v ∈ parts → v.size ≠ 0 ∧ v.data + v.size ≤ s.length ∧
        (∀ b, b ∈ StringView.bytes s v → b ∉ D) ∧
        (v.data = 0 ∨ (1 ≤ v.data ∧ ∃ b, s[v.data - 1]? = some b ∧ b ∈ D)) ∧
        (v.data + v.size = s.length ∨ ∃ b, s[v.data + v.size]? = some b ∧ b ∈ D)) ∧
      parts.Pairwise (fun v w => v.data + v.size < w.data) ∧
      (toStrings s parts).flatten = s.filter (fun b => decide (b ∉ D)) ∧
      (s ≠ [] → (∀ b, b ∈ s → b ∉ D) →
        parts = [⟨0, s.length⟩] ∧ toStrings s parts = [s]) ∧
      (∀ b, s.getLast? = some b → b ∉ D →
        ∃ v, parts.getLast? = some v ∧ v.data + v.size = s.length) := by
  have hne := scanFields_parts_nonempty (fun b => decide (b ∈ D)) s
  have hin := scanFields_inside (fun b => decide (b ∈ D)) false s s 0 0 rfl (le_refl _)
    (by simp)
  have hbd := scanFields_boundaries (fun b => decide (b ∈ D)) false s s 0 0 rfl (le_refl _)
  have hfl := scanFields_flatten (fun b => decide (b ∈ D)) false s s 0 0 rfl (le_refl _)
    (by simp)
  have hord := parts_within_ordered (fun b => decide (b ∈ D)) false s _
    (ite_nil_or ((scanFields (fun b => decide (b ∈ D)) false s 0 0).2 < s.length) _)
  obtain ⟨_, hle, _⟩ := scanFields_bounds (fun b => decide (b ∈ D)) false s 0 0 (le_refl _)
  simp only [Nat.zero_add] at hle
  refine ⟨_, splitWithoutEmptyPartsSet_eq s D, ?_, ?_, hord.2, ?_, ?_, ?_⟩
  · simp [splitWithoutEmptyPartsSetStl, splitWithoutEmptyPartsSet_eq]
  · intro v hv
    refine ⟨by have := (hne v hv).1; omega, (hne v hv).2, ?_, ?_, ?_⟩
    · intro b hb
      have hfalse : decide (b ∈ D) = false := by
        rcases List.mem_append.1 hv with hv | hv
        · exact hin.1 v hv b hb
        · split at hv
          · rw [List.mem_singleton] at hv
            subst hv
            rw [bytes_last_part] at hb
            exact hin.2 b hb
          · cases hv
      simpa using hfalse
    · rcases List.mem_append.1 hv with hv | hv
      · rcases (hbd.1 v hv).1 with h | ⟨h1, b, h2, h3⟩
        · left; exact h
        · right; exact ⟨h1, b, h2, by simpa using h3⟩
      · split at hv
        · rw [List.mem_singleton] at hv
          subst hv
          rcases hbd.2 with h | ⟨h1, b, h2, h3⟩
          · left; exact h
          · right; exact ⟨h1, b, h2, by simpa using h3⟩
        · cases hv
    · rcases List.mem_append.1 hv with hv | hv
      · obtain ⟨b, h2, h3⟩ := (hbd.1 v hv).2
        right; exact ⟨b, h2, by simpa using h3⟩
      · split at hv
        · rw [List.mem_singleton] at hv
          subst hv
          left
          simp only
          omega
        · cases hv
  · have hlast : (toStrings s
        (if (scanFields (fun b => decide (b ∈ D)) false s 0 0).2 < s.length then
          [StringView.mk (scanFields (fun b => decide (b ∈ D)) false s 0 0).2
            (s.length - (scanFields (fun b => decide (b ∈ D)) false s 0 0).2)]
        else [])).flatten = s.drop (scanFields (fun b => decide (b ∈ D)) false s 0 0).2 := by
      split
      · simp [toStrings, bytes_last_part]
      · rename_i hge
        rw [List.drop_eq_nil_iff.2 (by omega)]
        rfl
    have hmap : toStrings s ((scanFields (fun b => decide (b ∈ D)) false s 0 0).1 ++
        (if (scanFields (fun b => decide (b ∈ D)) false s 0 0).2 < s.length then
          [StringView.mk (scanFields (fun b => decide (b ∈ D)) false s 0 0).2
            (s.length - (scanFields (fun b => decide (b ∈ D)) false s 0 0).2)]
        else [])) =
        toStrings s (scanFields (fun b => decide (b ∈ D)) false s 0 0).1 ++
        toStrings s (if (scanFields (fun b => decide (b ∈ D)) false s 0 0).2 < s.length then
          [StringView.mk (scanFields (fun b => decide (b ∈ D)) false s 0 0).2
            (s.length - (scanFields (fun b => decide (b ∈ D)) false s 0 0).2)]
        else []) := by
      simp [toStrings]
    rw [hmap, List.flatten_append, hlast, hfl, List.drop_zero]
    apply List.filter_congr
    intro b _
    simp
  · intro hs hnone
    have hscan := scanFields_no_delimiter (fun b => decide (b ∈ D)) false s 0 0
      (fun b hb => by simpa using hnone b hb)
    have hpos : 0 < s.length := List.length_pos.2 hs
    rw [hscan]
    simp only [List.nil_append, hpos, if_true, Nat.sub_zero, true_and]
    have hb := bytes_last_part s 0
    simp only [Nat.sub_zero, List.drop_zero] at hb
    simp [toStrings, hb]
  · intro b hlast hb
    have hs : s ≠ [] := by
      intro h; rw [h] at hlast; cases hlast
    have hpos : 0 < s.length := List.length_pos.2 hs
    have hlt : (scanFields (fun b => decide (b ∈ D)) false s 0 0).2 < s.length := by
      by_contra hge
      have heq : (scanFields (fun b => decide (b ∈ D)) false s 0 0).2 = s.length := by omega
      rcases hbd.2 with h | ⟨_, b', h2, h3⟩
      · omega
      · rw [heq, ← List.getLast?_eq_getElem?, hlast] at h2
        have : b = b' := Option.some.inj h2
        subst this
        exact hb (by simpa using h3)
    simp only [hlt, if_true, List.getLast?_concat, Option.some.injEq, exists_eq_left']
    omega

/-- C13 at `" a\t\tb"` with the set `" \t"`: the parts `[1,2)` and `[4,5)`. -/
theorem splitWithoutEmptyPartsSet_runs_witness :
    splitWithoutEmptyPartsSetStl [32, 97, 9, 9, 98] [32, 9] = .ok [[97], [98]] ∧
    ∃ parts, splitWithoutEmptyPartsSet [97, 98] [] = .ok parts ∧ parts = [⟨0, 2⟩] := by
  obtain ⟨parts, h1, _, _, _, _, h6, _⟩ := splitWithoutEmptyPartsSet_runs [97, 98] []
  exact ⟨by decide, parts, h1, (h6 (by decide) (fun b _ => by simp)).1⟩


/-- When the string does not end with a delimiter, its last part is not empty. -/
theorem last_part_begins_inside (isDelimiter : Byte → Bool) (keepEmpty : Bool)
    (s : List Byte) (b : Byte) (hlast : s.getLast? = some b) (hb : isDelimiter b = false) :
    (scanFields isDelimiter keepEmpty s 0 0).2 < s.length := by
  have hbd := (scanFields_boundaries isDelimiter keepEmpty s s 0 0 rfl (le_refl _)).2
  obtain ⟨_, hle, _⟩ := scanFields_bounds isDelimiter keepEmpty s 0 0 (le_refl _)
  simp only [Nat.zero_add] at hle
  have hs : s ≠ [] := by
    intro h; rw [h] at hlast; cases hlast
  have hpos : 0 < s.length := List.length_pos.2 hs
  by_contra hge
  have heq : (scanFields isDelimiter keepEmpty s 0 0).2 = s.length := by omega
  rcases hbd with h | ⟨_, b', h2, h3⟩
  · omega
  · rw [heq, ← List.getLast?_eq_getElem?, hlast] at h2
    have : b = b' := Option.some.inj h2
    subst this
    rw [hb] at h3
    cases h3

theorem pairwise_strict_disjoint (parts : List StringView)
    (h : parts.Pairwise (fun v w => v.data + v.size < w.data)) :
    parts.Pairwise (fun v w => v.data < w.data ∧ v.data + v.size ≤ w.data) :=
  h.imp (fun {v w} hvw => ⟨by omega, by omega⟩)

/-- C20: `split(s, c)`, `splitWithoutEmptyParts(s, c)` and
`splitWithoutEmptyParts(s, D)` return (no slice is out of bounds); each view
they return has offsets `0 <= begin <= end <= |s|` and is what the
bounds-checked `slice` gives at these offsets; the views come in strictly
increasing offset order and do not overlap.  The cursor `oldpos` ends within
`[0, |s|]` in the two single-byte loops and within `[0, |s| + 1]` in the
byte-set loop, where it is `|s| + 1` when `s` does not end with a byte of `D`. -/
theorem split_slices_within_bounds (s : List Byte) (c : Byte) (D : List Byte) :
    (∃ parts, split s c = .ok parts ∧
      (∀ v, v ∈ parts → v.data ≤ v.data + v.size ∧ v.data + v.size ≤ s.length ∧
        slice s v.data (v.data + v.size) = .ok v) ∧
      parts.Pairwise (fun v w => v.data < w.data ∧ v.data + v.size ≤ w.data)) ∧
    (∃ parts, splitWithoutEmptyParts s c = .ok parts ∧
      (∀ v, v ∈ parts → v.data ≤ v.data + v.size ∧ v.data + v.size ≤ s.length ∧
        slice s v.data (v.data + v.size) = .ok v) ∧
      parts.Pairwise (fun v w => v.data < w.data ∧ v.data + v.size ≤ w.data)) ∧
    (∃ parts, splitWithoutEmptyPartsSet s D = .ok parts ∧
      (∀ v, v ∈ parts → v.data ≤ v.data + v.size ∧ v.data + v.size ≤ s.length ∧
        slice s v.data (v.data + v.size) = .ok v) ∧
      parts.Pairwise (fun v w => v.data < w.data ∧ v.data + v.size ≤ w.data)) ∧
    (∃ oldpos parts, splitLoop s c (s.length + 1) 0 [] = .ok (oldpos, parts) ∧
      oldpos ≤ s.length) ∧
    (∃ oldpos parts, splitWithoutEmptyPartsLoop s c (s.length + 1) 0 [] = .ok (oldpos, parts) ∧
      oldpos ≤ s.length) ∧
    (∃ oldpos parts,
      splitWithoutEmptyPartsSetLoop s D (s.length + 1) 0 [] = .ok (oldpos, parts) ∧
      oldpos ≤ s.length + 1) ∧
    (∀ b, s.getLast? = some b → b ∉ D →
      ∃ parts, splitWithoutEmptyPartsSetLoop s D (s.length + 1) 0 [] =
        .ok (s.length + 1, parts)) := by
  have h1 := parts_within_ordered (fun b => b == c) true s _
    (ite_nil_or' s.isEmpty (StringView.mk (scanFields (fun b => b == c) true s 0 0).2
      (s.length - (scanFields (fun b => b == c) true s 0 0).2)))
  have h2 := parts_within_ordered (fun b => b == c) false s _
    (ite_nil_or ((scanFields (fun b => b == c) false s 0 0).2 < s.length) _)
  have h3 := parts_within_ordered (fun b => decide (b ∈ D)) false s _
    (ite_nil_or ((scanFields (fun b => decide (b ∈ D)) false s 0 0).2 < s.length) _)
  obtain ⟨_, b1, _⟩ := scanFields_bounds (fun b => b == c) true s 0 0 (le_refl _)
  obtain ⟨_, b2, _⟩ := scanFields_bounds (fun b => b == c) false s 0 0 (le_refl _)
  obtain ⟨_, b3, _⟩ := scanFields_bounds (fun b => decide (b ∈ D)) false s 0 0 (le_refl _)
  simp only [Nat.zero_add] at b1 b2 b3
  refine ⟨⟨_, split_eq s c, ?_, pairwise_strict_disjoint _ h1.2⟩,
    ⟨_, splitWithoutEmptyParts_eq s c, ?_, pairwise_strict_disjoint _ h2.2⟩,
    ⟨_, splitWithoutEmptyPartsSet_eq s D, ?_, pairwise_strict_disjoint _ h3.2⟩,
    ⟨_, _, splitLoop_eq s c (s.length + 1) s 0 [] rfl (by omega) (by omega), b1⟩,
    ⟨_, _, splitWithoutEmptyPartsLoop_eq s c (s.length + 1) s 0 [] rfl (by omega) (by omega),
      b2⟩,
    ⟨_, _, splitWithoutEmptyPartsSetLoop_eq s D (s.length + 1) s 0 [] rfl (by omega)
      (by omega), ?_⟩, ?_⟩
  · intro v hv
    exact ⟨by omega, (h1.1 v hv).1, (h1.1 v hv).2⟩
  · intro v hv
    exact ⟨by omega, (h2.1 v hv).1, (h2.1 v hv).2⟩
  · intro v hv
    exact ⟨by omega, (h3.1 v hv).1, (h3.1 v hv).2⟩
  · split
    · omega
    · omega
  · intro b hlast hb
    have hlt := last_part_begins_inside (fun b => decide (b ∈ D)) false s b hlast
      (by simpa using hb)
    have hloop := splitWithoutEmptyPartsSetLoop_eq s D (s.length + 1) s 0 [] rfl (by omega)
      (by omega)
    simp only [hlt, if_true] at hloop
    exact ⟨_, hloop⟩

/-- C20 at `"a b"` with the set `" "`: the loop ends with `oldpos = 4 = |s| + 1`,
and the views `[0,1)` and `[2,3)` are returned. -/
theorem split_slices_within_bounds_witness :
    (∃ parts, splitWithoutEmptyPartsSetLoop [97, 32, 98] [32] 4 0 [] = .ok (4, parts)) ∧
    splitWithoutEmptyPartsSet [97, 32, 98] [32] = .ok [⟨0, 1⟩, ⟨2, 1⟩] :=
  ⟨(split_slices_within_bounds [97, 32, 98] 32 [32]).2.2.2.2.2.2 98 (by decide) (by decide),
    by decide⟩

end CorradeString
